import Mathlib

/-!
Verification of the needlepoint orchestration engine (Rust sources under
`src-tauri/src/`).  The Rust data model and the operations the claims speak
about are embedded shallowly: `Vec` becomes `List`, `HashSet`/`HashMap`
contents become deduplicated lists or explicit functions, `Result<T, String>`
becomes `Except String T`, and `String` payloads of the code-fence stripper
are embedded as `List Char` (a Rust string is exactly its sequence of
characters for the purposes of these claims).  Nondeterministic inputs of the
Rust code (UUID generation, per-call LLM outcomes, cancellation timing, hash
map iteration order) are passed in as explicit parameters, so each theorem
quantifies over them.
-/

set_option maxRecDepth 4096

/-- Status of a code node in the generation pipeline (`graph/model.rs`). -/
inductive NodeStatus where
  | Pending
  | Generating
  | Complete
  | Error
  | Warning
deriving DecidableEq

/-- Supported LLM providers (`graph/model.rs`). -/
inductive LLMProvider where
  | Anthropic
  | OpenAI
  | Ollama
deriving DecidableEq

/-- Supported programming languages (`graph/model.rs`, `Language`; renamed
because Mathlib already declares `Language`). -/
inductive NodeLanguage where
  | TypeScript
  | JavaScript
  | Python
  | Rust
  | Go
deriving DecidableEq

/-- Position on the graph canvas (`graph/model.rs`); the core treats it as
passthrough, so the two `f64` fields are embedded as an opaque pair of
`Float`s that no claim inspects. -/
structure Position where
  x : Float
  y : Float

/-- Signature of an exported function/class/variable (`graph/model.rs`). -/
structure ExportSignature where
  name : String
  type_signature : String
  description : String
deriving DecidableEq

/-- LLM configuration for a node (`graph/model.rs`). -/
structure LLMConfig where
  provider : LLMProvider
  model : String
  system_prompt : Option String
  constraints : List String
deriving DecidableEq

/-- A node representing a code file in the graph (`graph/model.rs`). -/
structure CodeNode where
  id : String
  name : String
  file_path : String
  language : NodeLanguage
  status : NodeStatus
  description : String
  purpose : String
  exports : List ExportSignature
  llm_config : LLMConfig
  generated_code : Option String
  error_message : Option String
  position : Position

/-- An edge representing a relationship between code nodes (`graph/model.rs`).
The Rust `commands/graph.rs` constructs edges with an `EdgeType` argument
while `graph/model.rs` declares the field as a free-text `label : String`;
we follow `graph/model.rs` (no claim depends on the label's contents). -/
structure CodeEdge where
  id : String
  source : String
  target : String
  label : String
deriving DecidableEq

/-- Default LLM configuration for a project (`graph/model.rs`). -/
structure DefaultLLM where
  provider : LLMProvider
  model : String
  api_key_env : String
deriving DecidableEq

/-- Project manifest containing metadata (`graph/model.rs`). -/
structure ProjectManifest where
  name : String
  version : String
  entry_point : Option String
  default_llm : DefaultLLM
deriving DecidableEq

/-- The complete project structure (`graph/model.rs`). -/
structure Project where
  manifest : ProjectManifest
  nodes : List CodeNode
  edges : List CodeEdge
  project_path : String

/-- Find a node by ID (`Project::find_node`): the first node whose id
matches. -/
def Project.find_node (p : Project) (id : String) : Option CodeNode :=
  p.nodes.find? (fun n => n.id == id)

/-- The ids of the project's nodes, in node order, duplicates retained
(the key list of the Rust code's id-keyed hash maps is `.dedup` of this). -/
def Project.nodeIdList (p : Project) : List String :=
  p.nodes.map CodeNode.id

/-! ## Code-fence stripper (`llm/context.rs`, `strip_code_blocks`)

The Rust function trims the input and matches it against the anchored regex
`^TICK TICK TICK (?:\w+)? \s* \n? ([\s\S]*?) \n? TICK TICK TICK $` (spaces
added for readability; TICK is a backtick).  On a match it returns capture
group 1 trimmed, otherwise the trimmed input.  The embedding implements the
regex engine's leftmost-first semantics for this particular pattern
explicitly: the optional greedy word run `(?:\w+)?` tries the longest word
prefix first and backtracks down to the empty string, the greedy `\s*`
likewise, the optional `\n?` prefers consuming a newline, the lazy capture
`([\s\S]*?)` prefers the shortest body, and the final `\n?` prefers a
newline; the trailing three backticks are anchored at the end of the input.

`\s` and `\w` in the `regex` crate are Unicode-aware.  `isRustWhitespaceChar`
lists the full Unicode White_Space set used by both `str::trim` and `\s`.
The `\w` class (Alphabetic + Mark + Decimal_Number + Connector_Punctuation +
Join_Control) has a Unicode table far too large to transcribe, so the matcher
is *parametric* in the word predicate `w : Char → Bool`: the program is the
instance at the crate's `\w`.  Theorems assume of `w` only what is true of
`\w` (a backtick is not a word character), so they hold at that instance.
Concrete evaluations instantiate `w` at `isWordCharAscii`, the ASCII fragment
`[0-9A-Za-z_]` of `\w`; the congruence lemma `strip_code_blocks_congr` shows
that on an input all of whose characters the two predicates classify alike —
in particular on any all-ASCII input, where `isWordCharAscii` and `\w`
agree — the output is the same, so those evaluations compute the value of
the program itself. -/

/-- Unicode White_Space characters: the set accepted by Rust's
`char::is_whitespace` and by the regex class `\s`. -/
def isRustWhitespaceChar (c : Char) : Bool :=
  c == ' ' || c == '\t' || c == '\n' || c == '\x0b' || c == '\x0c' || c == '\r' ||
  c == '\x85' || c == '\xa0' || c == ' ' ||
  (decide (' ' ≤ c) && decide (c ≤ ' ')) ||
  c == ' ' || c == ' ' || c == ' ' || c == ' ' || c == '　'

/-- ASCII fragment `[0-9A-Za-z_]` of the regex word class `\w`: the two
classes agree on every ASCII character.  Used only to instantiate the
parametric matcher for concrete evaluation on all-ASCII inputs, where by
`strip_code_blocks_congr` the instance computes the same result as the full
Unicode class. -/
def isWordCharAscii (c : Char) : Bool :=
  c.isAlphanum || c == '_'

/-- Rust's `str::trim` on the character sequence: drop leading and trailing
whitespace. -/
def trimChars (cs : List Char) : List Char :=
  ((cs.dropWhile isRustWhitespaceChar).reverse.dropWhile isRustWhitespaceChar).reverse

/-- Three backticks, the code-fence delimiter of the regex. -/
def ftick : List Char := ['`', '`', '`']

/-- The lazy tail `([\s\S]*?) \n? TICK TICK TICK $` of the regex: scanning
left to right, finish at the earliest position where the rest of the input
is exactly the closing fence with an optional preceding newline, and return
the capture accumulated so far. -/
def lazyBodyTail : List Char → Option (List Char)
  | [] => none
  | c :: t =>
    if c :: t = '\n' :: ftick then some []
    else if c :: t = ftick then some []
    else (lazyBodyTail t).map (fun b => c :: b)

/-- Candidate lengths for a greedy optional run: longest first, down to the
empty match. -/
def revRangeIncl (n : Nat) : List Nat :=
  (List.range (n + 1)).reverse

/-- Full match of the regex after the opening fence has been consumed:
backtrack over the greedy `(?:\w+)?` and `\s*` lengths (longest first), then
prefer the `\n?` that consumes a newline, and hand the rest to the lazy
tail.  Returns the capture of group 1 of the leftmost-first match.
Parametric in the word predicate `w` standing for the regex class `\w`. -/
def matchFenceBody (w : Char → Bool) (s : List Char) : Option (List Char) :=
  if s.take 3 = ftick then
    let rest := s.drop 3
    (revRangeIncl (rest.takeWhile w).length).findSome? (fun aLen =>
      let r1 := rest.drop aLen
      (revRangeIncl (r1.takeWhile isRustWhitespaceChar).length).findSome? (fun bLen =>
        let r2 := r1.drop bLen
        (if r2.head? = some '\n' then lazyBodyTail r2.tail else none).orElse
          (fun _ => lazyBodyTail r2)))
  else none

/-- Strip markdown code blocks from LLM output
(`llm/context.rs::strip_code_blocks`); the program is the instance at the
regex crate's `\w` word predicate. -/
def strip_code_blocks (w : Char → Bool) (content : List Char) : List Char :=
  let c := trimChars content
  match matchFenceBody w c with
  | some body => trimChars body
  | none => c

/-! ## Planner (`orchestration/planner.rs`)

`ExecutionPlan::from_project` runs Kahn's algorithm by waves.  The Rust code
keys its hash maps by the `HashSet` of node ids; sets of strings are embedded
as deduplicated lists (first occurrence kept), and the in-degree map as a
function `String → Nat` (entries for ids outside the key set are never read
by the algorithm: `in_degree.get` is only called on members of `remaining ⊆
node_ids`, and `get_mut` on an absent key is a no-op, matching a harmless
functional update).  The `while !remaining.is_empty()` loop strictly shrinks
`remaining` every iteration (a nonempty `ready ⊆ remaining` is removed), so
running it with `remaining.length` as fuel is exact: when fuel reaches zero
`remaining` is already empty and the loop would have exited. -/

/-- A wave of nodes that can be generated in parallel (`ExecutionWave`).
The Rust `node_ids : Vec<String>` is collected from a `HashSet` iteration
whose order is unspecified; claims only look at membership and length. -/
structure ExecutionWave where
  wave_number : Nat
  node_ids : List String
deriving DecidableEq

/-- The complete execution plan (`ExecutionPlan`). -/
structure ExecutionPlan where
  waves : List ExecutionWave
  total_nodes : Nat
  skipped_nodes : List String
deriving DecidableEq

/-- The `HashSet` of node ids (`node_ids` in `from_project`). -/
def plannerNodeIds (p : Project) : List String :=
  p.nodeIdList.dedup

/-- The `dependencies` map: for an existing node `n`, the set of sources of
edges targeting `n` (dangling sources included — the Rust code inserts
`edge.source` whenever the *target* exists); no entry otherwise. -/
def plannerDeps (p : Project) (n : String) : List String :=
  if n ∈ plannerNodeIds p then
    ((p.edges.filter (fun e => e.target == n)).map CodeEdge.source).dedup
  else []

/-- The `dependents` map: for an existing node `s`, the set of targets of
edges leaving `s` (dangling targets included); no entry otherwise. -/
def plannerDependents (p : Project) (s : String) : List String :=
  if s ∈ plannerNodeIds p then
    ((p.edges.filter (fun e => e.source == s)).map CodeEdge.target).dedup
  else []

/-- The wave loop of `from_project`: collect the ready nodes (in-degree 0),
emit them as a wave, remove them from `remaining`, and decrement the
in-degree of each of their dependents once per ready node (`saturating_sub`);
stop when `remaining` or `ready` is empty.  Leftovers are the skipped
nodes. -/
def kahnLoop (dependents : String → List String) :
    Nat → List String → (String → Nat) → Nat → List ExecutionWave × List String
  | 0, remaining, _, _ => ([], remaining)
  | fuel + 1, remaining, inDeg, waveNum =>
    if remaining.isEmpty then ([], remaining)
    else
      let ready := remaining.filter (fun id => inDeg id == 0)
      if ready.isEmpty then ([], remaining)
      else
        let remaining2 := remaining.filter (fun id => !(ready.contains id))
        let inDeg2 := fun n =>
          inDeg n - (ready.filter (fun s => (dependents s).contains n)).length
        let r := kahnLoop dependents fuel remaining2 inDeg2 (waveNum + 1)
        (⟨waveNum, ready⟩ :: r.1, r.2)

/-- Create an execution plan from a project using topological sort
(`ExecutionPlan::from_project`). -/
def ExecutionPlan.from_project (p : Project) : ExecutionPlan :=
  let ids := plannerNodeIds p
  let r := kahnLoop (plannerDependents p) ids.length ids
             (fun n => (plannerDeps p n).length) 0
  ⟨r.1, (r.1.map (fun w => w.node_ids.length)).sum, r.2⟩

/-! ## Directed-cycle detection

`graph/validation.rs` delegates cycle detection to `petgraph`'s
`is_cyclic_directed`, an external library function whose contract is
"returns true iff the graph contains a directed cycle".  The graphs handed
to it are built over the project's nodes with only those edges whose two
endpoints exist, so they are embedded as lists of `(source, target)` id
pairs.  (Duplicate node ids would create extra isolated `petgraph` vertices
— the `node_indices` map keeps the last — and repeated pairs create parallel
edges; neither affects the existence of a cycle.)  The contract is
implemented by iterating one-step reachability expansion to a fixpoint and
is proved below to coincide with the mathematical statement
`HasDirectedCycle`. -/

/-- One expansion step of forward reachability: add every target of an edge
whose source is already reached. -/
def expandOnce (E : List (String × String)) (R : Finset String) : Finset String :=
  R ∪ ((E.filter (fun e => decide (e.1 ∈ R))).map Prod.snd).toFinset

/-- All vertices mentioned by the edge list. -/
def graphVerts (E : List (String × String)) : List String :=
  (E.map Prod.fst ++ E.map Prod.snd).dedup

/-- Bounded reachability: `u` is reachable from `v` in at most `fuel`
steps. -/
def reachesB (E : List (String × String)) (v u : String) (fuel : Nat) : Bool :=
  decide (u ∈ (expandOnce E)^[fuel] {v})

/-- Whether the directed graph given by the edge list contains a directed
cycle (the contract of `petgraph::algo::is_cyclic_directed`): some edge
`u → v` closes a path from `v` back to `u`. -/
def is_cyclic_directed (E : List (String × String)) : Bool :=
  E.any (fun e => reachesB E e.2 e.1 ((graphVerts E).length + 1))

/-- Mathematical form of cycle existence: some edge `u → v` together with a
(reflexive-transitive) path from `v` back to `u`. -/
def HasDirectedCycle (E : List (String × String)) : Prop :=
  ∃ u v, (u, v) ∈ E ∧ Relation.ReflTransGen (fun a b => (a, b) ∈ E) v u

/-- The id pairs of the project's edges whose two endpoints exist: exactly
the edges added to the `petgraph` graphs of `validate_project` and
`would_create_cycle`. -/
def validEdgePairs (p : Project) : List (String × String) :=
  (p.edges.filter (fun e =>
    p.nodeIdList.contains e.source && p.nodeIdList.contains e.target)).map
    (fun e => (e.source, e.target))

/-- Check if adding an edge would create a cycle
(`graph/validation.rs::would_create_cycle`): build the graph of existing
valid edges, add the proposed edge when both endpoints exist and test for a
cycle; report `false` when either endpoint is missing. -/
def would_create_cycle (p : Project) (source target : String) : Bool :=
  if p.nodeIdList.contains source && p.nodeIdList.contains target then
    is_cyclic_directed (validEdgePairs p ++ [(source, target)])
  else false

/-! ## Graph mutation commands (`commands/graph.rs`)

Each Tauri command takes the project by value and returns
`Result<Project, String>`, embedded as `Except String Project`.  UUIDs
generated with `Uuid::new_v4()` are nondeterministic and are passed in as an
explicit `freshId` parameter. -/

/-- Add a new node to the project (`commands/graph.rs::add_node`): generate
an id only when the supplied one is empty, reject a duplicate `file_path`,
otherwise append. -/
def add_node (p : Project) (node : CodeNode) (freshId : String) : Except String Project :=
  let new_node := if node.id = "" then { node with id := freshId } else node
  if p.nodes.any (fun n => n.file_path == new_node.file_path) then
    .error ("A node with file path '" ++ new_node.file_path ++ "' already exists")
  else
    .ok { p with nodes := p.nodes ++ [new_node] }

/-- The field update applied by `commands/graph.rs::update_node` to the
found node: every listed field is overwritten; `id`, `status`,
`generated_code` and `error_message` are kept. -/
def patchNode (updates : CodeNode) (n : CodeNode) : CodeNode :=
  { n with
    name := updates.name
    file_path := updates.file_path
    language := updates.language
    description := updates.description
    purpose := updates.purpose
    exports := updates.exports
    llm_config := updates.llm_config
    position := updates.position }

/-- Apply `f` to the first node whose id matches (`find_node_mut`);
`none` when no node matches. -/
def updateFirst (id : String) (f : CodeNode → CodeNode) :
    List CodeNode → Option (List CodeNode)
  | [] => none
  | n :: rest =>
    if n.id = id then some (f n :: rest)
    else (updateFirst id f rest).map (fun ns => n :: ns)

/-- Update an existing node (`commands/graph.rs::update_node`). -/
def update_node (p : Project) (node_id : String) (updates : CodeNode) :
    Except String Project :=
  match updateFirst node_id (patchNode updates) p.nodes with
  | some ns => .ok { p with nodes := ns }
  | none => .error ("Node '" ++ node_id ++ "' not found")

/-- Add a new edge to the project (`commands/graph.rs::add_edge`): the four
checks in source order, then append the new edge. -/
def add_edge (p : Project) (source target label freshId : String) :
    Except String Project :=
  if (p.find_node source).isNone then
    .error ("Source node '" ++ source ++ "' not found")
  else if (p.find_node target).isNone then
    .error ("Target node '" ++ target ++ "' not found")
  else if source = target then
    .error "Cannot create an edge from a node to itself"
  else if p.edges.any (fun e => e.source == source && e.target == target) then
    .error "Edge already exists"
  else if would_create_cycle p source target then
    .error "Adding this edge would create a circular dependency"
  else
    .ok { p with edges := p.edges ++ [⟨freshId, source, target, label⟩] }

/-! ## Validator (`graph/validation.rs::validate_project`)

The only part of `validate_project` whose output order is not fixed by the
input is the duplicate-file-path section: it iterates over a freshly built
`HashMap<&str, Vec<&str>>` keyed by file path, and Rust's `RandomState`
gives every map its own iteration order.  That order is passed in as the
explicit parameter `pathOrder`, constrained (`validPathOrder`) to be a
permutation of the distinct file paths.  Everything else (the missing-node
edge loop, the cycle check, and both warning loops) follows the input's node
and edge order deterministically. -/

/-- Validation error types (`ValidationError`).  `OrphanNode` is declared by
the Rust enum but never produced by `validate_project`. -/
inductive ValidationError where
  | CyclicDependency (path : List String)
  | OrphanNode (id : String)
  | MissingNode (id : String)
  | DuplicateFilePath (path : String) (ids : List String)
deriving DecidableEq

/-- Validation warning types (`ValidationWarning`). -/
inductive ValidationWarning where
  | EmptyDescription (id : String)
  | NoExports (id : String)
  | UnreachableNode (id : String)
deriving DecidableEq

/-- Result of validating a project (`ValidationResult`). -/
structure ValidationResult where
  errors : List ValidationError
  warnings : List ValidationWarning
deriving DecidableEq

/-- The edge loop of `validate_project`: a `MissingNode` error per edge with
a missing endpoint; a missing source wins over a missing target (the Rust
`match` tests `(None, _)` first). -/
def missingEndpointErrors (p : Project) : List ValidationError :=
  p.edges.filterMap (fun e =>
    if p.nodeIdList.contains e.source then
      if p.nodeIdList.contains e.target then none
      else some (.MissingNode e.target)
    else some (.MissingNode e.source))

/-- The ids of the nodes carrying the given file path, in node order (the
`Vec` the duplicate-path map accumulates per key). -/
def nodesWithPath (p : Project) (path : String) : List String :=
  (p.nodes.filter (fun n => n.file_path == path)).map CodeNode.id

/-- The distinct file paths of the project: the key set of the
duplicate-path map. -/
def distinctFilePaths (p : Project) : List String :=
  (p.nodes.map CodeNode.file_path).dedup

/-- Admissible iteration orders of the duplicate-path map: any permutation
of its key set. -/
def validPathOrder (p : Project) (order : List String) : Prop :=
  order.Perm (distinctFilePaths p)

/-- The duplicate-file-path section of `validate_project`, iterating the map
in the given key order. -/
def duplicatePathErrors (p : Project) (order : List String) : List ValidationError :=
  order.filterMap (fun path =>
    let ids := nodesWithPath p path
    if ids.length > 1 then some (.DuplicateFilePath path ids) else none)

/-- Every id occurring as an endpoint of some edge (`nodes_in_edges`;
membership is all that is used). -/
def nodesInEdges (p : Project) : List String :=
  p.edges.flatMap (fun e => [e.source, e.target])

/-- Validate the project graph structure
(`graph/validation.rs::validate_project`), with the duplicate-path map's
iteration order as an explicit parameter. -/
def validate_project (p : Project) (pathOrder : List String) : ValidationResult :=
  let errors :=
    missingEndpointErrors p
    ++ (if is_cyclic_directed (validEdgePairs p) then
          [ValidationError.CyclicDependency ["Cycle detected in graph"]]
        else [])
    ++ duplicatePathErrors p pathOrder
  let warnings :=
    (p.nodes.filterMap (fun n =>
      if !((nodesInEdges p).contains n.id) && p.nodes.length > 1 then
        some (.UnreachableNode n.id)
      else none))
    ++ p.nodes.flatMap (fun n =>
        (if n.description = "" then [ValidationWarning.EmptyDescription n.id] else [])
        ++ (if n.exports.isEmpty then [ValidationWarning.NoExports n.id] else []))
  ⟨errors, warnings⟩

/-! ## Executor (`orchestration/executor.rs`)

`execute_all` walks the plan's waves; per wave it first marks every wave
node `Generating`, then runs `generate_node` concurrently for each and
applies the collected results in order, setting `Complete` (storing the
generated code, clearing the error) or `Error` (storing the message).  The
outcome of `generate_node` for a node — success with stripped code, or any
of its failure paths (missing node, prompt failure, unconfigured provider,
provider error) — is abstracted as an oracle `o : String → NodeResult`.
The cancellation flag, which other tasks may set at any time, is read once
at the top of each wave iteration; the value observed at iteration `i` is
the parameter `cancelAt i`.  Events are emitted to the UI only and are not
modelled. -/

/-- Result of generating a single node (`NodeResult`), less the id. -/
structure NodeResult where
  success : Bool
  generated_code : Option String
  error_message : Option String

/-- Update a node's status and optionally its generated code
(`Executor::update_node`): the first node with the id gets the new status;
`generated_code` is overwritten only when a new code is supplied;
`error_message` is overwritten by `err` (cleared when `err` is `none`).
No-op when the id is absent. -/
def executorUpdateNode (nodes : List CodeNode) (node_id : String)
    (status : NodeStatus) (code err : Option String) : List CodeNode :=
  match nodes with
  | [] => []
  | n :: rest =>
    if n.id = node_id then
      { n with
        status := status
        generated_code := match code with | some c => some c | none => n.generated_code
        error_message := err } :: rest
    else n :: executorUpdateNode rest node_id status code err

/-- Apply one collected `NodeResult` (the per-result branch of
`execute_all`). -/
def applyResult (o : String → NodeResult) (nodes : List CodeNode) (id : String) :
    List CodeNode :=
  let r := o id
  if r.success then executorUpdateNode nodes id .Complete r.generated_code none
  else executorUpdateNode nodes id .Error none r.error_message

/-- Run one wave: mark every wave node `Generating`, then apply every
node's result. -/
def runWave (o : String → NodeResult) (w : ExecutionWave)
    (nodes : List CodeNode) : List CodeNode :=
  let marked := w.node_ids.foldl
    (fun ns id => executorUpdateNode ns id .Generating none none) nodes
  w.node_ids.foldl (applyResult o) marked

/-- The wave loop of `execute_all`: stop at the first wave where the
cancellation flag is observed set. -/
def runWaves (o : String → NodeResult) (cancelAt : Nat → Bool) :
    List ExecutionWave → Nat → List CodeNode → List CodeNode
  | [], _, nodes => nodes
  | w :: rest, i, nodes =>
    if cancelAt i then nodes
    else runWaves o cancelAt rest (i + 1) (runWave o w nodes)

/-- Execute generation for all nodes in the project
(`Executor::execute_all`) and return the updated project. -/
def execute_all (p : Project) (o : String → NodeResult) (cancelAt : Nat → Bool) :
    Project :=
  { p with nodes := runWaves o cancelAt (ExecutionPlan.from_project p).waves 0 p.nodes }

/-! ## Concrete fixtures for witnesses and counterexamples -/

/-- A default LLM configuration (`LLMConfig::default`). -/
def testLLM : LLMConfig := ⟨.Anthropic, "claude-sonnet-4-20250514", none, []⟩

/-- A fresh pending node with the given id and file path, other fields at
their `CodeNode::new` defaults. -/
def testNode (id path : String) : CodeNode :=
  ⟨id, id, path, .TypeScript, .Pending, "", "", [], testLLM, none, none, ⟨0, 0⟩⟩

/-- A default project manifest (`ProjectManifest::default`). -/
def testManifest : ProjectManifest :=
  ⟨"New Project", "0.1.0", none, ⟨.Anthropic, "claude-sonnet-4-20250514", "ANTHROPIC_API_KEY"⟩⟩

/-- An edge with the given id and endpoints and an empty label. -/
def testEdge (id s t : String) : CodeEdge := ⟨id, s, t, ""⟩

/-- A project over the default manifest. -/
def testProject (nodes : List CodeNode) (edges : List CodeEdge) : Project :=
  ⟨testManifest, nodes, edges, ""⟩

/-- Linear three-node chain `a → b → c` (the `test_execution_plan_linear`
fixture). -/
def projLinear : Project :=
  testProject [testNode "a" "a.ts", testNode "b" "b.ts", testNode "c" "c.ts"]
    [testEdge "e1" "a" "b", testEdge "e2" "b" "c"]

/-- One real node `a` with an edge from the nonexistent node `x`. -/
def projDanglingSource : Project :=
  testProject [testNode "a" "a.ts"] [testEdge "e1" "x" "a"]

/-- One real node `a` with an edge to the nonexistent node `x`. -/
def projDanglingTarget : Project :=
  testProject [testNode "a" "a.ts"] [testEdge "e1" "a" "x"]

/-- The same project without the dangling edge. -/
def projNoEdge : Project :=
  testProject [testNode "a" "a.ts"] []

/-- One node that is already `Generating` and sits on a self-loop, so the
planner skips it and the executor never touches it. -/
def projGenStuck : Project :=
  testProject [{ testNode "a" "a.ts" with status := .Generating }] [testEdge "e1" "a" "a"]

/-- Four nodes with two duplicated file paths `p` and `q`. -/
def projDupPaths : Project :=
  testProject [testNode "a" "p", testNode "b" "p", testNode "c" "q", testNode "d" "q"] []

/-- Two nodes with distinct paths, for the `update_node` file-path bug. -/
def projTwoPaths : Project :=
  testProject [testNode "a" "a.ts", testNode "b" "b.ts"] []

/-- An oracle that always succeeds without producing code. -/
def oracleOk : String → NodeResult := fun _ => ⟨true, none, none⟩

/-- A cancellation schedule that never observes the flag set. -/
def neverCancel : Nat → Bool := fun _ => false

/-! # Theorems -/

section BasicLemmas

theorem string_contains_iff (l : List String) (a : String) :
    l.contains a = true ↔ a ∈ l := by
  simp [List.contains_iff_exists_mem_beq, beq_iff_eq]

end BasicLemmas

/-- C10: `would_create_cycle` returns `false` whenever its source or target
argument does not name an existing node of the project; it never reports a
cycle for a candidate edge with a missing endpoint. -/
theorem would_create_cycle_missing_endpoint (p : Project) (s t : String)
    (h : s ∉ p.nodeIdList ∨ t ∉ p.nodeIdList) :
    would_create_cycle p s t = false := by
  unfold would_create_cycle
  rcases h with h | h
  · rw [if_neg]
    intro hc
    exact h ((string_contains_iff _ _).mp (Bool.and_elim_left hc))
  · rw [if_neg]
    intro hc
    exact h ((string_contains_iff _ _).mp (Bool.and_elim_right hc))

theorem would_create_cycle_missing_endpoint_witness :
    ("x" ∉ projLinear.nodeIdList ∨ "a" ∉ projLinear.nodeIdList)
    ∧ would_create_cycle projLinear "x" "a" = false :=
  ⟨Or.inl (by decide),
   would_create_cycle_missing_endpoint projLinear "x" "a" (Or.inl (by decide))⟩

/-- C9: `add_node` generates a fresh id only when the supplied node's id is
the empty string; a non-empty caller-supplied id is stored unchanged; and
the only rejection is a duplicate `file_path` — node ids are never checked,
so a node whose id duplicates an existing one is accepted. -/
theorem add_node_id_handling (p : Project) (node : CodeNode) (freshId : String) :
    (node.id ≠ "" → ∀ q, add_node p node freshId = .ok q →
      q.nodes = p.nodes ++ [node])
    ∧ (node.id = "" → ∀ q, add_node p node freshId = .ok q →
      q.nodes = p.nodes ++ [{ node with id := freshId }])
    ∧ ((∃ msg, add_node p node freshId = .error msg) ↔
      ∃ n ∈ p.nodes, n.file_path = node.file_path) := by
  have hany_iff : ∀ nn : CodeNode,
      (p.nodes.any fun n => n.file_path == nn.file_path) = true ↔
      ∃ n ∈ p.nodes, n.file_path = nn.file_path := by
    intro nn
    rw [List.any_eq_true]
    constructor
    · rintro ⟨n, hn, hb⟩
      exact ⟨n, hn, beq_iff_eq.mp hb⟩
    · rintro ⟨n, hn, hb⟩
      exact ⟨n, hn, beq_iff_eq.mpr hb⟩
  refine ⟨?_, ?_, ?_, ?_⟩
  · intro hne q hq
    unfold add_node at hq
    rw [if_neg hne] at hq
    dsimp only at hq
    split at hq
    · exact Except.noConfusion hq
    · cases Except.ok.inj hq
      rfl
  · intro he q hq
    unfold add_node at hq
    rw [if_pos he] at hq
    dsimp only at hq
    split at hq
    · exact Except.noConfusion hq
    · cases Except.ok.inj hq
      rfl
  · rintro ⟨msg, hmsg⟩
    unfold add_node at hmsg
    by_cases he : node.id = ""
    · rw [if_pos he] at hmsg
      dsimp only at hmsg
      split at hmsg
      · rename_i hc
        exact (hany_iff _).mp hc
      · exact Except.noConfusion hmsg
    · rw [if_neg he] at hmsg
      dsimp only at hmsg
      split at hmsg
      · rename_i hc
        exact (hany_iff _).mp hc
      · exact Except.noConfusion hmsg
  · rintro ⟨n, hn, hfp⟩
    refine ⟨"A node with file path '" ++ node.file_path ++ "' already exists", ?_⟩
    by_cases he : node.id = ""
    · unfold add_node
      rw [if_pos he]
      dsimp only
      rw [if_pos ((hany_iff _).mpr ⟨n, hn, hfp⟩)]
    · unfold add_node
      rw [if_neg he]
      dsimp only
      rw [if_pos ((hany_iff _).mpr ⟨n, hn, hfp⟩)]

theorem add_node_id_handling_witness :
    (testNode "a" "p2.ts").id ≠ ""
    ∧ (∀ q, add_node (testProject [testNode "a" "p1.ts"] []) (testNode "a" "p2.ts") "f"
        = .ok q → q.nodes = [testNode "a" "p1.ts"] ++ [testNode "a" "p2.ts"]) := by
  refine ⟨by decide, ?_⟩
  have h := (add_node_id_handling (testProject [testNode "a" "p1.ts"] [])
    (testNode "a" "p2.ts") "f").1 (by decide)
  simpa [testProject] using h

/-- C5 (code evaluated at the failing input): `update_node` accepts a patch
whose `file_path` duplicates another node's path — it succeeds, and the
resulting project carries two nodes with file path `a.ts`, breaking the
uniqueness invariant the specification says is re-checked. -/
theorem update_node_duplicate_filepath_accepted :
    (update_node projTwoPaths "b" (testNode "b" "a.ts")).isOk = true
    ∧ (update_node projTwoPaths "b" (testNode "b" "a.ts")).toOption.map
        (fun q => q.nodes.map (fun n => n.file_path)) = some ["a.ts", "a.ts"] := by
  constructor <;> rfl

/-! ### Lemmas about trimming and the fence matcher -/

section StripLemmas

theorem ws_newline : isRustWhitespaceChar '\n' = true := by decide

theorem ws_tick : isRustWhitespaceChar '`' = false := by decide

theorem word_tick : isWordCharAscii '`' = false := by decide

theorem takeWhile_congr {w1 w2 : Char → Bool} {l : List Char}
    (h : ∀ c ∈ l, w1 c = w2 c) : l.takeWhile w1 = l.takeWhile w2 := by
  induction l with
  | nil => rfl
  | cons c t ih =>
    have hc := h c (List.mem_cons_self c t)
    by_cases h2 : w2 c = true
    · rw [List.takeWhile_cons, List.takeWhile_cons, hc, if_pos h2, if_pos h2,
        ih (fun x hx => h x (List.mem_cons_of_mem c hx))]
    · rw [List.takeWhile_cons, List.takeWhile_cons, hc, if_neg h2, if_neg h2]

theorem dropWhile_length_le (p : Char → Bool) (l : List Char) :
    (l.dropWhile p).length ≤ l.length := by
  induction l with
  | nil => simp
  | cons c t ih =>
    by_cases hc : p c
    · simp only [List.dropWhile_cons, hc, if_true]
      exact ih.trans (Nat.le_succ _)
    · simp [List.dropWhile_cons, hc]

theorem dropWhile_idem (p : Char → Bool) (l : List Char) :
    (l.dropWhile p).dropWhile p = l.dropWhile p := by
  induction l with
  | nil => rfl
  | cons c t ih =>
    by_cases hc : p c
    · simp only [List.dropWhile_cons, hc, if_true]
      exact ih
    · simp [List.dropWhile_cons, hc]

theorem dropWhile_eq_self_of_prefix {p : Char → Bool} {l z : List Char}
    (h : l.dropWhile p = l) (hpre : z <+: l) : z.dropWhile p = z := by
  cases z with
  | nil => rfl
  | cons c z2 =>
    obtain ⟨u, hu⟩ := hpre
    by_cases hc : p c
    · exfalso
      rw [← hu, List.cons_append, List.dropWhile_cons, if_pos hc] at h
      have hle := dropWhile_length_le p (z2 ++ u)
      have hlen := congrArg List.length h
      rw [List.length_cons] at hlen
      omega
    · simp [List.dropWhile_cons, hc]

theorem dropWhile_isSuffix (p : Char → Bool) (l : List Char) :
    l.dropWhile p <:+ l := by
  induction l with
  | nil => exact List.suffix_refl _
  | cons c t ih =>
    by_cases hc : p c
    · simp only [List.dropWhile_cons, hc, if_true]
      exact ih.trans (List.suffix_cons c t)
    · simp [List.dropWhile_cons, hc]

theorem dropWhile_trim_left (cs : List Char) :
    (trimChars cs).dropWhile isRustWhitespaceChar = trimChars cs := by
  have hpre : trimChars cs <+: cs.dropWhile isRustWhitespaceChar := by
    rw [← List.reverse_suffix]
    have hrev : (trimChars cs).reverse
        = ((cs.dropWhile isRustWhitespaceChar).reverse).dropWhile isRustWhitespaceChar := by
      unfold trimChars
      rw [List.reverse_reverse]
    rw [hrev]
    exact dropWhile_isSuffix _ _
  exact dropWhile_eq_self_of_prefix (dropWhile_idem _ _) hpre

theorem trimChars_idem (cs : List Char) :
    trimChars (trimChars cs) = trimChars cs := by
  conv_lhs => rw [trimChars, dropWhile_trim_left]
  show ((((cs.dropWhile isRustWhitespaceChar).reverse.dropWhile
    isRustWhitespaceChar).reverse).reverse.dropWhile isRustWhitespaceChar).reverse
    = trimChars cs
  rw [List.reverse_reverse, dropWhile_idem]
  rfl

theorem trimChars_append_ws (cs : List Char) (c : Char)
    (hc : isRustWhitespaceChar c = true) :
    trimChars (cs ++ [c]) = trimChars cs := by
  unfold trimChars
  rw [List.dropWhile_append]
  split
  · rename_i he
    have h0 : cs.dropWhile isRustWhitespaceChar = [] := by
      simpa [List.isEmpty_iff] using he
    rw [h0]
    simp [List.dropWhile_cons, hc]
  · rw [List.reverse_append]
    show ((c :: (cs.dropWhile isRustWhitespaceChar).reverse).dropWhile
      isRustWhitespaceChar).reverse = _
    rw [List.dropWhile_cons, if_pos hc]

theorem strip_trimmed (w : Char → Bool) (cs : List Char) :
    trimChars (strip_code_blocks w cs) = strip_code_blocks w cs := by
  unfold strip_code_blocks
  dsimp only
  split <;> exact trimChars_idem _

theorem lazyBodyTail_sound {cs b : List Char} (h : lazyBodyTail cs = some b) :
    cs = b ++ ftick ∨ cs = b ++ '\n' :: ftick := by
  induction cs generalizing b with
  | nil => simp [lazyBodyTail] at h
  | cons c t ih =>
    unfold lazyBodyTail at h
    split at h
    · rename_i he
      cases Option.some.inj h
      exact Or.inr he
    · split at h
      · rename_i he
        cases Option.some.inj h
        exact Or.inl he
      · rw [Option.map_eq_some'] at h
        obtain ⟨b2, hb2, rfl⟩ := h
        rcases ih hb2 with h1 | h1
        · exact Or.inl (by rw [h1]; rfl)
        · exact Or.inr (by rw [h1]; rfl)

theorem lazyBodyTail_complete {cs : List Char} (h : ftick <:+ cs) :
    ∃ b, lazyBodyTail cs = some b := by
  induction cs with
  | nil =>
    have := h.length_le
    simp [ftick] at this
  | cons c t ih =>
    unfold lazyBodyTail
    by_cases h1 : c :: t = '\n' :: ftick
    · rw [if_pos h1]
      exact ⟨[], rfl⟩
    · rw [if_neg h1]
      by_cases h2 : c :: t = ftick
      · rw [if_pos h2]
        exact ⟨[], rfl⟩
      · rw [if_neg h2]
        rcases List.suffix_cons_iff.mp h with heq | hsuf
        · exact absurd heq.symm h2
        · obtain ⟨b, hb⟩ := ih hsuf
          exact ⟨c :: b, by rw [hb]; rfl⟩

theorem lazyBodyTail_suffix_len {cs b : List Char} (h : lazyBodyTail cs = some b) :
    ftick <:+ cs ∧ 3 ≤ cs.length := by
  rcases lazyBodyTail_sound h with h1 | h1 <;> subst h1
  · refine ⟨List.suffix_append _ _, ?_⟩
    simp [ftick]
  · refine ⟨?_, ?_⟩
    · exact (List.suffix_cons_iff.mpr (Or.inr (List.suffix_refl _))).trans
        (List.suffix_append _ _)
    · simp [ftick]

theorem lazyBodyTail_trim {cs b : List Char} (h : lazyBodyTail cs = some b) :
    trimChars b = trimChars (cs.take (cs.length - 3)) := by
  rcases lazyBodyTail_sound h with h1 | h1 <;> subst h1
  · have hl : (b ++ ftick).length - 3 = b.length := by simp [ftick]
    rw [hl, List.take_left]
  · have hl : (b ++ '\n' :: ftick).length - 3 = b.length + 1 := by simp [ftick]
    rw [hl, List.take_append 1]
    show trimChars b = trimChars (b ++ ['\n'])
    exact (trimChars_append_ws b '\n' ws_newline).symm

theorem ftick_suffix_dropWhile {p : Char → Bool} {l : List Char}
    (hp : p '`' = false) (h : ftick <:+ l) : ftick <:+ l.dropWhile p := by
  obtain ⟨u, rfl⟩ := h
  rw [List.dropWhile_append]
  split
  · have hd : List.dropWhile p ftick = ftick := by
      simp [ftick, List.dropWhile_cons, hp]
    rw [hd]
  · exact List.suffix_append _ _

theorem drop_of_takeWhile_length (p : Char → Bool) (l : List Char) :
    List.drop (l.takeWhile p).length l = l.dropWhile p := by
  have h := List.drop_left (l.takeWhile p) (l.dropWhile p)
  rw [List.takeWhile_append_dropWhile] at h
  exact h

theorem dropWhile_head_false {p : Char → Bool} {l : List Char} {c : Char}
    {t : List Char} (h : l.dropWhile p = c :: t) : p c = false := by
  induction l with
  | nil => simp at h
  | cons a u ih =>
    rw [List.dropWhile_cons] at h
    split at h
    · exact ih h
    · rename_i ha
      cases List.cons.inj h
      subst_vars
      simpa using ha

end StripLemmas

section MatcherLemmas

theorem revRangeIncl_cons (n : Nat) :
    revRangeIncl n = n :: (List.range n).reverse := by
  simp [revRangeIncl, List.range_succ]

theorem matchFenceBody_pos {w : Char → Bool} {s : List Char}
    (hw : w '`' = false) (h3 : s.take 3 = ftick)
    (hsuf : ftick <:+ s.drop 3) :
    ∃ b, matchFenceBody w s = some b ∧
      trimChars b =
        trimChars
          ((((s.drop 3).dropWhile w).dropWhile isRustWhitespaceChar).take
            ((((s.drop 3).dropWhile w).dropWhile isRustWhitespaceChar).length - 3)) := by
  have hsufX : ftick <:+
      ((s.drop 3).dropWhile w).dropWhile isRustWhitespaceChar :=
    ftick_suffix_dropWhile ws_tick (ftick_suffix_dropWhile hw hsuf)
  obtain ⟨b, hb⟩ := lazyBodyTail_complete hsufX
  refine ⟨b, ?_, lazyBodyTail_trim hb⟩
  have hhead : ¬ (((s.drop 3).dropWhile w).dropWhile
      isRustWhitespaceChar).head? = some '\n' := by
    intro hh
    cases hx : ((s.drop 3).dropWhile w).dropWhile isRustWhitespaceChar with
    | nil => rw [hx] at hh; simp at hh
    | cons c t =>
      rw [hx] at hh
      simp at hh
      subst hh
      have := dropWhile_head_false hx
      rw [ws_newline] at this
      cases this
  unfold matchFenceBody
  rw [if_pos h3]
  dsimp only
  rw [revRangeIncl_cons, List.findSome?_cons]
  rw [drop_of_takeWhile_length]
  rw [revRangeIncl_cons, List.findSome?_cons]
  rw [drop_of_takeWhile_length]
  simp only [if_neg hhead, hb, Option.orElse]

theorem matchFenceBody_none {w : Char → Bool} {s : List Char}
    (h : ¬(s.take 3 = ftick ∧ ftick <:+ s ∧ 6 ≤ s.length)) :
    matchFenceBody w s = none := by
  by_cases h3 : s.take 3 = ftick
  · have hslen : 3 ≤ s.length := by
      have h1 := congrArg List.length h3
      simp [ftick] at h1
      omega
    unfold matchFenceBody
    rw [if_pos h3]
    dsimp only
    rw [List.findSome?_eq_none_iff]
    intro aLen _h1
    rw [List.findSome?_eq_none_iff]
    intro bLen _h2
    have key : ∀ z : List Char, z <:+ s.drop 3 → ∀ b, lazyBodyTail z = some b → False := by
      intro z hz b hbz
      obtain ⟨hfz, hlz⟩ := lazyBodyTail_suffix_len hbz
      apply h
      refine ⟨h3, hfz.trans (hz.trans (List.drop_suffix 3 s)), ?_⟩
      have hle := hz.length_le
      rw [List.length_drop] at hle
      omega
    have hz2 : (List.drop bLen (List.drop aLen (s.drop 3))) <:+ s.drop 3 :=
      (List.drop_suffix _ _).trans (List.drop_suffix _ _)
    cases hlz : lazyBodyTail (List.drop bLen (List.drop aLen (s.drop 3))) with
    | some b => exact (key _ hz2 b hlz).elim
    | none =>
      by_cases hhd : (List.drop bLen (List.drop aLen (s.drop 3))).head? = some '\n'
      · cases hlt : lazyBodyTail (List.drop bLen (List.drop aLen (s.drop 3))).tail with
        | some b =>
          have htz : (List.drop bLen (List.drop aLen (s.drop 3))).tail <:+ s.drop 3 := by
            rw [← List.drop_one]
            exact (List.drop_suffix _ _).trans hz2
          exact (key _ htz b hlt).elim
        | none =>
          rw [if_pos hhd]
          rfl
      · rw [if_neg hhd]
        rfl
  · unfold matchFenceBody
    rw [if_neg h3]

theorem matchFenceBody_congr {w1 w2 : Char → Bool} {s : List Char}
    (h : ∀ c ∈ s, w1 c = w2 c) :
    matchFenceBody w1 s = matchFenceBody w2 s := by
  unfold matchFenceBody
  by_cases h3 : s.take 3 = ftick
  · rw [if_pos h3, if_pos h3]
    dsimp only
    rw [takeWhile_congr (fun c hc => h c (List.drop_subset 3 s hc))]
  · rw [if_neg h3, if_neg h3]

theorem strip_code_blocks_congr {w1 w2 : Char → Bool} (cs : List Char)
    (h : ∀ c ∈ trimChars cs, w1 c = w2 c) :
    strip_code_blocks w1 cs = strip_code_blocks w2 cs := by
  unfold strip_code_blocks
  dsimp only
  rw [matchFenceBody_congr h]

end MatcherLemmas

/-- C6 counterexample: the input consisting of a fence, the word `abc` and a
closing fence with *no newline anywhere* is nevertheless stripped to the
empty string — the regex's newline is optional (`\n?`), so the claim's
"returned trimmed and otherwise unchanged" fails here.  The input is pure
ASCII, so by `strip_code_blocks_congr` the value computed here at the ASCII
instance `isWordCharAscii` equals the value at every word predicate agreeing
with it on these ASCII characters — in particular at the regex crate's
Unicode `\w`, i.e. the value the program computes. -/
theorem strip_code_blocks_no_newline_counterexample :
    strip_code_blocks isWordCharAscii ("```abc```".toList)
      ≠ trimChars ("```abc```".toList)
    ∧ strip_code_blocks isWordCharAscii ("```abc```".toList) = []
    ∧ trimChars ("```abc```".toList) = "```abc```".toList := by
  refine ⟨?_, by decide, by decide⟩
  decide

/-- C6 (amended): for every word predicate `w` that excludes the backtick —
as the regex crate's Unicode `\w` does — `strip_code_blocks` at `w` trims
its input and, whenever the trimmed input starts with a triple-backtick,
ends with a triple-backtick and has length at least 6, replaces it by the
trimmed body obtained by removing the opening fence, a (possibly empty)
language-tag run of `w`-word characters, any following whitespace — a
newline is allowed but *not* required — and the closing fence; every other
input is returned trimmed and otherwise unchanged. -/
theorem strip_code_blocks_characterization (w : Char → Bool)
    (hw : w '`' = false) (cs : List Char) :
    strip_code_blocks w cs =
      if (trimChars cs).take 3 = ftick ∧ ftick <:+ trimChars cs
          ∧ 6 ≤ (trimChars cs).length then
        trimChars
          (((((trimChars cs).drop 3).dropWhile w).dropWhile
            isRustWhitespaceChar).take
            (((((trimChars cs).drop 3).dropWhile w).dropWhile
              isRustWhitespaceChar).length - 3))
      else trimChars cs := by
  by_cases hc : (trimChars cs).take 3 = ftick ∧ ftick <:+ trimChars cs
      ∧ 6 ≤ (trimChars cs).length
  · rw [if_pos hc]
    obtain ⟨h3, hend, hlen⟩ := hc
    have hsuf : ftick <:+ (trimChars cs).drop 3 := by
      obtain ⟨u, hu⟩ := hend
      have hul : u.length + 3 = (trimChars cs).length := by
        have := congrArg List.length hu
        simpa [ftick] using this
      have hdrop : (trimChars cs).drop 3 = u.drop 3 ++ ftick := by
        rw [← hu, List.drop_append_of_le_length (by omega)]
      rw [hdrop]
      exact List.suffix_append _ _
    obtain ⟨b, hm, htr⟩ := matchFenceBody_pos hw h3 hsuf
    unfold strip_code_blocks
    dsimp only
    rw [hm]
    exact htr
  · rw [if_neg hc]
    have hnone : matchFenceBody w (trimChars cs) = none := matchFenceBody_none hc
    unfold strip_code_blocks
    dsimp only
    rw [hnone]

theorem strip_code_blocks_characterization_witness :
    isWordCharAscii '`' = false
    ∧ strip_code_blocks isWordCharAscii ("```go\npackage main\n```".toList)
        = "package main".toList :=
  ⟨by decide,
    (strip_code_blocks_characterization isWordCharAscii (by decide)
      ("```go\npackage main\n```".toList)).trans (by decide)⟩

/-- C7 counterexample: a fenced block whose body is itself a fenced block is
stripped twice differently, so `strip_code_blocks` is not idempotent.  The
input is pure ASCII, so by `strip_code_blocks_congr` the values computed
here at the ASCII instance `isWordCharAscii` equal the values at every word
predicate agreeing with it on these ASCII characters — in particular at the
regex crate's Unicode `\w`, i.e. the values the program computes. -/
theorem strip_code_blocks_not_idempotent_counterexample :
    strip_code_blocks isWordCharAscii
        (strip_code_blocks isWordCharAscii ("```\n```\nhi\n```\n```".toList))
    ≠ strip_code_blocks isWordCharAscii ("```\n```\nhi\n```\n```".toList) := by
  decide

/-- C7 (amended): for every word predicate `w` — in particular the regex
crate's Unicode `\w` — `strip_code_blocks` at `w` is idempotent on every
input whose stripped result does not itself begin with a triple-backtick
fence (on such nested-fence outputs a second application strips again). -/
theorem strip_code_blocks_idempotent_on_unfenced (w : Char → Bool)
    (cs : List Char)
    (h : (strip_code_blocks w cs).take 3 ≠ ftick) :
    strip_code_blocks w (strip_code_blocks w cs) = strip_code_blocks w cs := by
  set y := strip_code_blocks w cs with hy
  have htrim : trimChars y = y := strip_trimmed w cs
  have hnone : matchFenceBody w (trimChars y) = none := by
    rw [htrim]
    unfold matchFenceBody
    rw [if_neg h]
  unfold strip_code_blocks
  dsimp only
  rw [hnone]
  exact htrim

theorem strip_code_blocks_idempotent_on_unfenced_witness :
    (strip_code_blocks isWordCharAscii ("hello".toList)).take 3 ≠ ftick
    ∧ strip_code_blocks isWordCharAscii
        (strip_code_blocks isWordCharAscii ("hello".toList))
        = strip_code_blocks isWordCharAscii ("hello".toList) :=
  ⟨by decide, strip_code_blocks_idempotent_on_unfenced isWordCharAscii
    ("hello".toList) (by decide)⟩

/-! ### Soundness and completeness of the cycle check -/

section CycleLemmas

theorem expandOnce_subset (E : List (String × String)) (R : Finset String) :
    R ⊆ expandOnce E R :=
  Finset.subset_union_left

theorem mem_expandOnce {E : List (String × String)} {R : Finset String} {x : String} :
    x ∈ expandOnce E R ↔ x ∈ R ∨ ∃ e ∈ E, e.1 ∈ R ∧ e.2 = x := by
  unfold expandOnce
  simp [List.mem_filter]

theorem expandOnce_mono {E : List (String × String)} {R S : Finset String}
    (h : R ⊆ S) : expandOnce E R ⊆ expandOnce E S := by
  intro x hx
  rw [mem_expandOnce] at hx ⊢
  rcases hx with hx | ⟨e, he, h1, h2⟩
  · exact Or.inl (h hx)
  · exact Or.inr ⟨e, he, h h1, h2⟩

theorem iterate_subset_succ (E : List (String × String)) (R : Finset String) (n : Nat) :
    (expandOnce E)^[n] R ⊆ (expandOnce E)^[n + 1] R := by
  rw [Function.iterate_succ_apply']
  exact expandOnce_subset E _

theorem iterate_subset_of_le (E : List (String × String)) (R : Finset String)
    {m n : Nat} (h : m ≤ n) : (expandOnce E)^[m] R ⊆ (expandOnce E)^[n] R := by
  induction n with
  | zero => cases Nat.le_zero.mp h; exact fun x hx => hx
  | succ n ih =>
    rcases Nat.lt_or_ge m (n + 1) with hlt | hge
    · exact (ih (Nat.lt_succ_iff.mp hlt)).trans (iterate_subset_succ E R n)
    · cases Nat.le_antisymm h hge
      exact fun x hx => hx

theorem iterate_stable (E : List (String × String)) (R : Finset String)
    (h : expandOnce E R = R) (j : Nat) : (expandOnce E)^[j] R = R := by
  induction j with
  | zero => rfl
  | succ j ih => rw [Function.iterate_succ_apply', ih, h]

theorem iterate_sound (E : List (String × String)) (v : String) :
    ∀ n x, x ∈ (expandOnce E)^[n] {v} →
      Relation.ReflTransGen (fun a b => (a, b) ∈ E) v x := by
  intro n
  induction n with
  | zero =>
    intro x hx
    rw [Function.iterate_zero_apply, Finset.mem_singleton] at hx
    subst hx
    exact Relation.ReflTransGen.refl
  | succ n ih =>
    intro x hx
    rw [Function.iterate_succ_apply', mem_expandOnce] at hx
    rcases hx with hx | ⟨e, he, h1, h2⟩
    · exact ih x hx
    · subst h2
      exact Relation.ReflTransGen.tail (ih e.1 h1) he

theorem iterate_complete (E : List (String × String)) (v u : String)
    (h : Relation.ReflTransGen (fun a b => (a, b) ∈ E) v u) :
    ∃ n, u ∈ (expandOnce E)^[n] {v} := by
  induction h with
  | refl => exact ⟨0, by simp⟩
  | tail _hab hbc ih =>
    obtain ⟨n, hn⟩ := ih
    rename_i b c
    refine ⟨n + 1, ?_⟩
    rw [Function.iterate_succ_apply', mem_expandOnce]
    exact Or.inr ⟨(b, c), hbc, hn, rfl⟩

theorem iterate_bound (E : List (String × String)) (v : String) (n : Nat) :
    (expandOnce E)^[n] {v} ⊆ insert v (graphVerts E).toFinset := by
  induction n with
  | zero =>
    rw [Function.iterate_zero_apply]
    intro x hx
    rw [Finset.mem_singleton] at hx
    subst hx
    exact Finset.mem_insert_self _ _
  | succ n ih =>
    rw [Function.iterate_succ_apply']
    intro x hx
    rw [mem_expandOnce] at hx
    rcases hx with hx | ⟨e, he, _h1, h2⟩
    · exact ih hx
    · refine Finset.mem_insert_of_mem ?_
      rw [List.mem_toFinset]
      unfold graphVerts
      rw [List.mem_dedup, List.mem_append]
      exact Or.inr (List.mem_map.mpr ⟨e, he, h2⟩)

theorem iterate_growth (E : List (String × String)) (v : String) (m : Nat)
    (h : ∀ k < m, expandOnce E ((expandOnce E)^[k] {v}) ≠ (expandOnce E)^[k] {v}) :
    m + 1 ≤ ((expandOnce E)^[m] {v}).card := by
  induction m with
  | zero => simp
  | succ m ih =>
    have hm := ih (fun k hk => h k (hk.trans (Nat.lt_succ_self m)))
    have hss : (expandOnce E)^[m] {v} ⊂ (expandOnce E)^[m + 1] {v} := by
      refine Finset.ssubset_iff_subset_ne.mpr ⟨iterate_subset_succ E _ m, ?_⟩
      intro heq
      apply h m (Nat.lt_succ_self m)
      rw [← Function.iterate_succ_apply' (expandOnce E) m ({v} : Finset String)]
      exact heq.symm
    have := Finset.card_lt_card hss
    omega

theorem mem_iterate_fuel (E : List (String × String)) (v u : String) (n : Nat)
    (h : u ∈ (expandOnce E)^[n] {v}) :
    u ∈ (expandOnce E)^[(graphVerts E).length + 1] {v} := by
  set N := (graphVerts E).length + 1 with hN
  by_cases hst : ∃ k < N, expandOnce E ((expandOnce E)^[k] {v}) = (expandOnce E)^[k] {v}
  · obtain ⟨k, hkN, hk⟩ := hst
    rcases Nat.le_total n N with hn | hn
    · exact iterate_subset_of_le E _ hn h
    · have hnk : k ≤ n := le_trans (Nat.le_of_lt hkN) hn
      have heq : (expandOnce E)^[n] {v} = (expandOnce E)^[k] {v} := by
        have := iterate_stable E ((expandOnce E)^[k] {v}) hk (n - k)
        rw [← Function.iterate_add_apply] at this
        rw [show n - k + k = n by omega] at this
        exact this
      rw [heq] at h
      exact iterate_subset_of_le E _ (Nat.le_of_lt hkN) h
  · exfalso
    push_neg at hst
    have hgrow := iterate_growth E v N hst
    have hcard : ((expandOnce E)^[N] {v}).card ≤ (graphVerts E).length + 1 := by
      have h1 := Finset.card_le_card (iterate_bound E v N)
      have h2 : (insert v (graphVerts E).toFinset).card ≤ (graphVerts E).toFinset.card + 1 :=
        Finset.card_insert_le _ _
      have h3 := List.toFinset_card_le (graphVerts E)
      omega
    omega

theorem reachesB_iff (E : List (String × String)) (v u : String) :
    reachesB E v u ((graphVerts E).length + 1) = true ↔
      Relation.ReflTransGen (fun a b => (a, b) ∈ E) v u := by
  unfold reachesB
  rw [decide_eq_true_eq]
  constructor
  · exact iterate_sound E v _ u
  · intro h
    obtain ⟨n, hn⟩ := iterate_complete E v u h
    exact mem_iterate_fuel E v u n hn

theorem is_cyclic_directed_iff (E : List (String × String)) :
    is_cyclic_directed E = true ↔ HasDirectedCycle E := by
  unfold is_cyclic_directed HasDirectedCycle
  rw [List.any_eq_true]
  constructor
  · rintro ⟨e, he, hr⟩
    exact ⟨e.1, e.2, he, (reachesB_iff E e.2 e.1).mp hr⟩
  · rintro ⟨u, w, he, hr⟩
    exact ⟨(u, w), he, (reachesB_iff E w u).mpr hr⟩

end CycleLemmas

section AddEdgeLemmas

theorem find_node_isNone_iff (p : Project) (id : String) :
    (p.find_node id).isNone = true ↔ id ∉ p.nodeIdList := by
  unfold Project.find_node Project.nodeIdList
  rw [Option.isNone_iff_eq_none, List.find?_eq_none]
  constructor
  · intro h hmem
    obtain ⟨n, hn, hid⟩ := List.mem_map.mp hmem
    exact h n hn (beq_iff_eq.mpr hid)
  · intro h n hn hbeq
    exact h (List.mem_map.mpr ⟨n, hn, beq_iff_eq.mp hbeq⟩)

theorem dup_edge_any_iff (p : Project) (s t : String) :
    (p.edges.any fun e => e.source == s && e.target == t) = true ↔
      ∃ e ∈ p.edges, e.source = s ∧ e.target = t := by
  rw [List.any_eq_true]
  constructor
  · rintro ⟨e, he, hb⟩
    rw [Bool.and_eq_true, beq_iff_eq, beq_iff_eq] at hb
    exact ⟨e, he, hb⟩
  · rintro ⟨e, he, h1, h2⟩
    refine ⟨e, he, ?_⟩
    rw [Bool.and_eq_true, beq_iff_eq, beq_iff_eq]
    exact ⟨h1, h2⟩

theorem would_create_cycle_iff (p : Project) (s t : String) :
    would_create_cycle p s t = true ↔
      s ∈ p.nodeIdList ∧ t ∈ p.nodeIdList
        ∧ HasDirectedCycle (validEdgePairs p ++ [(s, t)]) := by
  unfold would_create_cycle
  by_cases hc : (p.nodeIdList.contains s && p.nodeIdList.contains t) = true
  · rw [if_pos hc]
    rw [Bool.and_eq_true] at hc
    rw [is_cyclic_directed_iff]
    exact ⟨fun h => ⟨(string_contains_iff _ _).mp hc.1, (string_contains_iff _ _).mp hc.2, h⟩,
      fun h => h.2.2⟩
  · rw [if_neg hc]
    rw [Bool.and_eq_true] at hc
    constructor
    · intro h
      exact absurd h (by simp)
    · rintro ⟨hs, ht, _⟩
      exact absurd ⟨(string_contains_iff _ _).mpr hs, (string_contains_iff _ _).mpr ht⟩ hc

end AddEdgeLemmas

/-- C3: `add_edge` returns an error iff the source or target names no
existing node, or the edge is a self-loop, or an edge with the same
`(source, target)` pair already exists, or the graph of valid edges after
inserting the new edge contains a directed cycle; on success exactly the one
new edge is appended and the nodes are untouched.  (On error the Rust
function returns `Err(String)` and no project at all, so the caller's
project is unchanged by construction.) -/
theorem add_edge_error_iff (p : Project) (source target label freshId : String) :
    ((∃ msg, add_edge p source target label freshId = .error msg) ↔
      (source ∉ p.nodeIdList ∨ target ∉ p.nodeIdList ∨ source = target
        ∨ (∃ e ∈ p.edges, e.source = source ∧ e.target = target)
        ∨ HasDirectedCycle (validEdgePairs p ++ [(source, target)])))
    ∧ ∀ q, add_edge p source target label freshId = .ok q →
        q.nodes = p.nodes ∧ q.edges = p.edges ++ [⟨freshId, source, target, label⟩] := by
  unfold add_edge
  by_cases h1 : (p.find_node source).isNone = true
  · rw [if_pos h1]
    refine ⟨⟨fun _ => Or.inl ((find_node_isNone_iff p source).mp h1), fun _ => ⟨_, rfl⟩⟩, ?_⟩
    intro q hq
    exact Except.noConfusion hq
  · rw [if_neg h1]
    have hs : source ∈ p.nodeIdList := by
      by_contra hns
      exact h1 ((find_node_isNone_iff p source).mpr hns)
    by_cases h2 : (p.find_node target).isNone = true
    · rw [if_pos h2]
      refine ⟨⟨fun _ => Or.inr (Or.inl ((find_node_isNone_iff p target).mp h2)),
        fun _ => ⟨_, rfl⟩⟩, ?_⟩
      intro q hq
      exact Except.noConfusion hq
    · rw [if_neg h2]
      have ht : target ∈ p.nodeIdList := by
        by_contra hnt
        exact h2 ((find_node_isNone_iff p target).mpr hnt)
      by_cases h3 : source = target
      · rw [if_pos h3]
        refine ⟨⟨fun _ => Or.inr (Or.inr (Or.inl h3)), fun _ => ⟨_, rfl⟩⟩, ?_⟩
        intro q hq
        exact Except.noConfusion hq
      · rw [if_neg h3]
        by_cases h4 : (p.edges.any fun e => e.source == source && e.target == target) = true
        · rw [if_pos h4]
          refine ⟨⟨fun _ => Or.inr (Or.inr (Or.inr (Or.inl ((dup_edge_any_iff p source target).mp h4)))),
            fun _ => ⟨_, rfl⟩⟩, ?_⟩
          intro q hq
          exact Except.noConfusion hq
        · rw [if_neg h4]
          by_cases h5 : would_create_cycle p source target = true
          · rw [if_pos h5]
            refine ⟨⟨fun _ => Or.inr (Or.inr (Or.inr (Or.inr
              ((would_create_cycle_iff p source target).mp h5).2.2))),
              fun _ => ⟨_, rfl⟩⟩, ?_⟩
            intro q hq
            exact Except.noConfusion hq
          · rw [if_neg h5]
            constructor
            · constructor
              · rintro ⟨msg, hmsg⟩
                exact Except.noConfusion hmsg
              · rintro (hd | hd | hd | hd | hd)
                · exact absurd hs hd
                · exact absurd ht hd
                · exact absurd hd h3
                · exact absurd ((dup_edge_any_iff p source target).mpr hd) h4
                · exact absurd ((would_create_cycle_iff p source target).mpr ⟨hs, ht, hd⟩) h5
            · intro q hq
              cases Except.ok.inj hq
              exact ⟨rfl, rfl⟩

theorem add_edge_error_iff_witness :
    (∃ msg, add_edge projLinear "c" "a" "lbl" "e9" = .error msg)
    ∧ ∃ q, add_edge projLinear "a" "c" "lbl" "e9" = .ok q
        ∧ q.nodes = projLinear.nodes
        ∧ q.edges = projLinear.edges ++ [⟨"e9", "a", "c", "lbl"⟩] := by
  constructor
  · apply (add_edge_error_iff projLinear "c" "a" "lbl" "e9").1.mpr
    refine Or.inr (Or.inr (Or.inr (Or.inr ?_)))
    refine ⟨"c", "a", by decide, ?_⟩
    have hab : (("a", "b") : String × String) ∈ validEdgePairs projLinear ++ [("c", "a")] := by
      decide
    have hbc : (("b", "c") : String × String) ∈ validEdgePairs projLinear ++ [("c", "a")] := by
      decide
    exact Relation.ReflTransGen.tail
      (Relation.ReflTransGen.tail Relation.ReflTransGen.refl hab) hbc
  · exact ⟨_, rfl, ((add_edge_error_iff projLinear "a" "c" "lbl" "e9").2 _ rfl)⟩

/-- C8 counterexample: on a project with two duplicated file paths, two
admissible iteration orders of the duplicate-path hash map produce the
`DuplicateFilePath` errors in different list orders, so two calls on equal
inputs need not return identical `ValidationResult`s. -/
theorem validate_project_order_counterexample :
    validPathOrder projDupPaths ["p", "q"]
    ∧ validPathOrder projDupPaths ["q", "p"]
    ∧ validate_project projDupPaths ["p", "q"]
        ≠ validate_project projDupPaths ["q", "p"] := by
  refine ⟨?_, ?_, by decide⟩ <;> (unfold validPathOrder; decide)

/-- C8 (amended): `validate_project` is deterministic up to the order of the
`DuplicateFilePath` errors, which follows the unspecified iteration order of
a per-call hash map: for any two admissible orders the error lists are
permutations of each other and the warning lists are identical. -/
theorem validate_project_deterministic_up_to_duplicate_order (p : Project)
    (o1 o2 : List String) (h1 : validPathOrder p o1) (h2 : validPathOrder p o2) :
    (validate_project p o1).errors.Perm (validate_project p o2).errors
    ∧ (validate_project p o1).warnings = (validate_project p o2).warnings := by
  constructor
  · unfold validate_project
    dsimp only
    exact List.Perm.append_left _ ((h1.trans h2.symm).filterMap _)
  · rfl

theorem validate_project_deterministic_up_to_duplicate_order_witness :
    validPathOrder projDupPaths ["p", "q"]
    ∧ validPathOrder projDupPaths ["q", "p"]
    ∧ (validate_project projDupPaths ["p", "q"]).errors.Perm
        (validate_project projDupPaths ["q", "p"]).errors
    ∧ (validate_project projDupPaths ["p", "q"]).warnings
        = (validate_project projDupPaths ["q", "p"]).warnings :=
  ⟨by unfold validPathOrder; decide, by unfold validPathOrder; decide,
    validate_project_deterministic_up_to_duplicate_order projDupPaths
      ["p", "q"] ["q", "p"] (by unfold validPathOrder; decide)
      (by unfold validPathOrder; decide)⟩

/-! ### Planner lemmas -/

section PlannerLemmas

theorem bool_eq_of_iff {a b : Bool} (h : a = true ↔ b = true) : a = b := by
  cases a <;> cases b <;> simp_all

theorem string_contains_false_iff (l : List String) (a : String) :
    l.contains a = false ↔ a ∉ l := by
  rw [Bool.eq_false_iff, Ne, string_contains_iff]

theorem length_filter_add_length_filter_not (l : List String) (p : String → Bool) :
    (l.filter p).length + (l.filter (fun a => !(p a))).length = l.length := by
  induction l with
  | nil => rfl
  | cons a t ih =>
    rw [List.filter_cons, List.filter_cons]
    cases hpa : p a <;> simp <;> omega

theorem count_common (A B : List String) (hA : A.Nodup) (hB : B.Nodup) :
    (A.filter (fun s => B.contains s)).length
      = (B.filter (fun s => A.contains s)).length := by
  have key : ∀ (X Y : List String), X.Nodup →
      (X.filter (fun s => Y.contains s)).length = (X.toFinset ∩ Y.toFinset).card := by
    intro X Y hX
    rw [← List.Nodup.dedup (List.Nodup.filter _ hX), ← List.card_toFinset,
      List.toFinset_filter]
    congr 1
    rw [← Finset.filter_mem_eq_inter]
    apply Finset.filter_congr
    intro x _
    simp [string_contains_iff]
  rw [key A B hA, key B A hB, Finset.inter_comm]

theorem inDeg_step (deps dependents : String → List String) (ids remaining : List String)
    (ready remaining2 : List String) (inDeg : String → Nat)
    (Hrel : ∀ s n, s ∈ ids → n ∈ ids → (n ∈ dependents s ↔ s ∈ deps n))
    (Hdnd : ∀ n, (deps n).Nodup)
    (Hsub : remaining ⊆ ids) (Hnd : remaining.Nodup)
    (Hready : ready = remaining.filter (fun id => inDeg id == 0))
    (Hrem2 : remaining2 = remaining.filter (fun id => !(ready.contains id)))
    (Hdeg : ∀ n ∈ remaining, inDeg n = ((deps n).filter
      (fun s => !(decide (s ∈ ids)) || decide (s ∈ remaining))).length)
    (n : String) (hn : n ∈ remaining2) :
    inDeg n - (ready.filter (fun s => (dependents s).contains n)).length
      = ((deps n).filter (fun s => !(decide (s ∈ ids)) || decide (s ∈ remaining2))).length := by
  have hreadysub : ready ⊆ remaining := by
    rw [Hready]
    exact (List.filter_sublist remaining).subset
  have hreadynd : ready.Nodup := Hready ▸ List.Nodup.filter _ Hnd
  have hnrem : n ∈ remaining := by
    rw [Hrem2] at hn
    exact (List.mem_filter.mp hn).1
  have hnids : n ∈ ids := Hsub hnrem
  -- the decremented amount counts the ready members of `deps n`
  have stepA : (ready.filter (fun s => (dependents s).contains n)).length
      = ((deps n).filter (fun s => ready.contains s)).length := by
    rw [List.filter_congr (fun s hs => ?_), count_common ready (deps n) hreadynd (Hdnd n)]
    apply bool_eq_of_iff
    rw [string_contains_iff, string_contains_iff]
    exact Hrel s n (Hsub (hreadysub hs)) hnids
  -- split the unresolved dependencies of `n` by readiness
  have stepC := length_filter_add_length_filter_not
    ((deps n).filter (fun s => !(decide (s ∈ ids)) || decide (s ∈ remaining)))
    (fun s => ready.contains s)
  have stepD : (((deps n).filter (fun s => !(decide (s ∈ ids)) || decide (s ∈ remaining))).filter
        (fun s => ready.contains s))
      = (deps n).filter (fun s => ready.contains s) := by
    rw [List.filter_filter]
    apply List.filter_congr
    intro s _
    by_cases hr : ready.contains s = true
    · have hsr : s ∈ remaining := hreadysub ((string_contains_iff _ _).mp hr)
      rw [hr, Bool.true_and]
      simp [hsr]
    · rw [Bool.not_eq_true] at hr
      rw [hr, Bool.false_and]
  have stepE : (((deps n).filter (fun s => !(decide (s ∈ ids)) || decide (s ∈ remaining))).filter
        (fun s => !(ready.contains s)))
      = (deps n).filter (fun s => !(decide (s ∈ ids)) || decide (s ∈ remaining2)) := by
    rw [List.filter_filter]
    apply List.filter_congr
    intro s _
    apply bool_eq_of_iff
    simp only [Bool.and_eq_true, Bool.or_eq_true, Bool.not_eq_true', decide_eq_true_eq,
      decide_eq_false_iff_not, string_contains_false_iff, Hrem2, List.mem_filter]
    constructor
    · rintro ⟨hnr, hd | hd⟩
      · exact Or.inl hd
      · exact Or.inr ⟨hd, hnr⟩
    · rintro (hd | ⟨hd1, hd2⟩)
      · exact ⟨fun hc => hd (Hsub (hreadysub hc)), Or.inl hd⟩
      · exact ⟨hd2, Or.inr hd1⟩
  rw [Hdeg n hnrem, stepA, ← stepE]
  rw [stepD] at stepC
  omega

end PlannerLemmas

theorem kahnLoop_spec (deps dependents : String → List String) (ids : List String)
    (Hrel : ∀ s n, s ∈ ids → n ∈ ids → (n ∈ dependents s ↔ s ∈ deps n))
    (Hdnd : ∀ n, (deps n).Nodup) :
    ∀ (fuel : Nat) (remaining : List String) (inDeg : String → Nat) (w0 : Nat),
      remaining ⊆ ids → remaining.Nodup →
      (∀ n ∈ remaining, inDeg n = ((deps n).filter
        (fun s => !(decide (s ∈ ids)) || decide (s ∈ remaining))).length) →
      (∀ i (hi : i < (kahnLoop dependents fuel remaining inDeg w0).1.length),
          ((kahnLoop dependents fuel remaining inDeg w0).1.get ⟨i, hi⟩).node_ids ⊆ remaining)
      ∧ (∀ i (hi : i < (kahnLoop dependents fuel remaining inDeg w0).1.length) n,
          n ∈ ((kahnLoop dependents fuel remaining inDeg w0).1.get ⟨i, hi⟩).node_ids →
          ∀ s, s ∈ deps n → s ∈ ids →
            s ∉ remaining
            ∨ ∃ j, ∃ hj : j < (kahnLoop dependents fuel remaining inDeg w0).1.length,
                j < i ∧ s ∈ ((kahnLoop dependents fuel remaining inDeg w0).1.get ⟨j, hj⟩).node_ids)
      ∧ (((kahnLoop dependents fuel remaining inDeg w0).1.map
            (fun w => w.node_ids.length)).sum
          + (kahnLoop dependents fuel remaining inDeg w0).2.length = remaining.length)
      ∧ (∀ i (hi : i < (kahnLoop dependents fuel remaining inDeg w0).1.length),
          ((kahnLoop dependents fuel remaining inDeg w0).1.get ⟨i, hi⟩).wave_number = w0 + i) := by
  intro fuel
  induction fuel with
  | zero =>
    intro remaining inDeg w0 _Hsub _Hnd _Hdeg
    have h0 : kahnLoop dependents 0 remaining inDeg w0 = ([], remaining) := rfl
    refine ⟨?_, ?_, ?_, ?_⟩ <;> rw [h0]
    · intro i hi
      simp at hi
    · intro i hi
      simp at hi
    · simp
    · intro i hi
      simp at hi
  | succ fuel ih =>
    intro remaining inDeg w0 Hsub Hnd Hdeg
    by_cases hre : remaining.isEmpty = true
    · have h0 : kahnLoop dependents (fuel + 1) remaining inDeg w0 = ([], remaining) := by
        simp only [kahnLoop, hre, if_true]
      refine ⟨?_, ?_, ?_, ?_⟩ <;> rw [h0]
      · intro i hi
        simp at hi
      · intro i hi
        simp at hi
      · simp
      · intro i hi
        simp at hi
    · by_cases hready : (remaining.filter (fun id => inDeg id == 0)).isEmpty = true
      · have hre' := hre
        rw [Bool.not_eq_true] at hre'
        have h0 : kahnLoop dependents (fuel + 1) remaining inDeg w0 = ([], remaining) := by
          simp only [kahnLoop, hre', hready, Bool.false_eq_true, if_false, if_true]
        refine ⟨?_, ?_, ?_, ?_⟩ <;> rw [h0]
        · intro i hi
          simp at hi
        · intro i hi
          simp at hi
        · simp
        · intro i hi
          simp at hi
      · have hre' := hre
        rw [Bool.not_eq_true] at hre'
        have hready' := hready
        rw [Bool.not_eq_true] at hready'
        set ready := remaining.filter (fun id => inDeg id == 0) with hready_def
        set remaining2 := remaining.filter (fun id => !(ready.contains id)) with hrem2_def
        set inDeg2 := (fun n =>
          inDeg n - (ready.filter (fun s => (dependents s).contains n)).length)
          with hinDeg2_def
        have hloop : kahnLoop dependents (fuel + 1) remaining inDeg w0
            = (⟨w0, ready⟩ :: (kahnLoop dependents fuel remaining2 inDeg2 (w0 + 1)).1,
               (kahnLoop dependents fuel remaining2 inDeg2 (w0 + 1)).2) := by
          simp only [kahnLoop, hre', hready', Bool.false_eq_true, if_false]
      

        have hsub2 : remaining2 ⊆ ids := by
          rw [hrem2_def]
          exact fun x hx => Hsub ((List.filter_sublist _).subset hx)
        have hnd2 : remaining2.Nodup := by
          rw [hrem2_def]
          exact List.Nodup.filter _ Hnd
        obtain ⟨ihA, ihB, ihC, ihD⟩ := ih remaining2 inDeg2 (w0 + 1) hsub2 hnd2
          (fun n hn => inDeg_step deps dependents ids remaining ready remaining2 inDeg
            Hrel Hdnd Hsub Hnd hready_def hrem2_def Hdeg n hn)
        have hreadysub : ready ⊆ remaining := by
          rw [hready_def]
          exact (List.filter_sublist _).subset
        have hrem2sub : remaining2 ⊆ remaining := by
          rw [hrem2_def]
          exact (List.filter_sublist _).subset
        refine ⟨?_, ?_, ?_, ?_⟩
        · intro i hi
          revert hi
          rw [hloop]
          intro hi
          cases i with
          | zero => exact fun x hx => hreadysub hx
          | succ i =>
            have hi' : i < (kahnLoop dependents fuel remaining2 inDeg2 (w0 + 1)).1.length := by
              simpa using hi
            rw [List.get_cons_succ]
            exact fun x hx => hrem2sub (ihA i hi' hx)
        · intro i hi n hn s hs hsids
          revert hi
          rw [hloop]
          intro hi hn
          cases i with
          | zero =>
            have hn' : n ∈ ready := hn
            rw [hready_def, List.mem_filter] at hn'
            obtain ⟨hnrem, hdeg0⟩ := hn'
            have hz : inDeg n = 0 := beq_iff_eq.mp hdeg0
            have hfil : ((deps n).filter
                (fun s => !(decide (s ∈ ids)) || decide (s ∈ remaining))).length = 0 := by
              rw [← Hdeg n hnrem]
              exact hz
            have hall := List.filter_eq_nil_iff.mp (List.length_eq_zero.mp hfil) s hs
            left
            intro hsrem
            apply hall
            rw [Bool.or_eq_true]
            exact Or.inr (decide_eq_true hsrem)
          | succ i =>
            have hi' : i < (kahnLoop dependents fuel remaining2 inDeg2 (w0 + 1)).1.length := by
              simpa using hi
            rw [List.get_cons_succ] at hn
            rcases ihB i hi' n hn s hs hsids with hout | ⟨j, hj, hji, hmem⟩
            · by_cases hsrem : s ∈ remaining
              · right
                refine ⟨0, by simp, Nat.succ_pos i, ?_⟩
                show s ∈ ready
                by_contra hnr
                apply hout
                rw [hrem2_def, List.mem_filter]
                refine ⟨hsrem, ?_⟩
                rw [Bool.not_eq_true']
                rw [string_contains_false_iff]
                exact hnr
              · exact Or.inl hsrem
            · right
              refine ⟨j + 1, ?_, Nat.succ_lt_succ hji, ?_⟩
              · simp only [List.length_cons]
                exact Nat.succ_lt_succ hj
              · rw [List.get_cons_succ]
                exact hmem
        · rw [hloop]
          simp only [List.map_cons, List.sum_cons]
          have hpart := length_filter_add_length_filter_not remaining
            (fun id => inDeg id == 0)
          have hcong : remaining2 = remaining.filter (fun id => !(inDeg id == 0)) := by
            rw [hrem2_def]
            apply List.filter_congr
            intro x hx
            have : ready.contains x = (inDeg x == 0) := by
              apply bool_eq_of_iff
              rw [string_contains_iff, hready_def, List.mem_filter]
              exact ⟨fun h => h.2, fun h => ⟨hx, h⟩⟩
            rw [this]
          have hlen2 := congrArg List.length hcong
          have hlenr := congrArg List.length hready_def
          omega
        · intro i hi
          revert hi
          rw [hloop]
          intro hi
          cases i with
          | zero => rfl
          | succ i =>
            have hi' : i < (kahnLoop dependents fuel remaining2 inDeg2 (w0 + 1)).1.length := by
              simpa using hi
            rw [List.get_cons_succ, ihD i hi']
            omega

theorem planner_rel (p : Project) : ∀ s n, s ∈ plannerNodeIds p → n ∈ plannerNodeIds p →
    (n ∈ plannerDependents p s ↔ s ∈ plannerDeps p n) := by
  intro s n hs hn
  unfold plannerDependents plannerDeps
  rw [if_pos hs, if_pos hn, List.mem_dedup, List.mem_dedup, List.mem_map, List.mem_map]
  constructor
  · rintro ⟨e, he, hte⟩
    rw [List.mem_filter] at he
    exact ⟨e, List.mem_filter.mpr ⟨he.1, beq_iff_eq.mpr hte⟩, beq_iff_eq.mp he.2⟩
  · rintro ⟨e, he, hse⟩
    rw [List.mem_filter] at he
    exact ⟨e, List.mem_filter.mpr ⟨he.1, beq_iff_eq.mpr hse⟩, beq_iff_eq.mp he.2⟩

theorem planner_deps_nodup (p : Project) : ∀ n, (plannerDeps p n).Nodup := by
  intro n
  unfold plannerDeps
  split
  · exact List.nodup_dedup _
  · exact List.nodup_nil

/-- C1: for every project whose node ids are unique (data-model invariant 6),
the plan produced by `ExecutionPlan.from_project` places every dependency
through an edge between existing nodes in a strictly earlier wave, its
`total_nodes` is the sum of the wave sizes, `total_nodes` plus the number of
skipped nodes is the number of nodes of the project, and the wave numbers
are `0, 1, 2, …` in order. -/
theorem planner_plan_correct (p : Project) (hids : p.nodeIdList.Nodup) :
    (∀ i (hi : i < (ExecutionPlan.from_project p).waves.length) n,
        n ∈ ((ExecutionPlan.from_project p).waves.get ⟨i, hi⟩).node_ids →
        ∀ e ∈ p.edges, e.target = n → e.source ∈ p.nodeIdList →
          ∃ j, ∃ hj : j < (ExecutionPlan.from_project p).waves.length,
            j < i ∧ e.source ∈ ((ExecutionPlan.from_project p).waves.get ⟨j, hj⟩).node_ids)
    ∧ (ExecutionPlan.from_project p).total_nodes
        = ((ExecutionPlan.from_project p).waves.map (fun w => w.node_ids.length)).sum
    ∧ (ExecutionPlan.from_project p).total_nodes
        + (ExecutionPlan.from_project p).skipped_nodes.length = p.nodes.length
    ∧ ∀ i (hi : i < (ExecutionPlan.from_project p).waves.length),
        ((ExecutionPlan.from_project p).waves.get ⟨i, hi⟩).wave_number = i := by
  have hdedup : plannerNodeIds p = p.nodeIdList := List.Nodup.dedup hids
  obtain ⟨sA, sB, sC, sD⟩ := kahnLoop_spec (plannerDeps p) (plannerDependents p)
    (plannerNodeIds p) (planner_rel p) (planner_deps_nodup p)
    (plannerNodeIds p).length (plannerNodeIds p)
    (fun n => (plannerDeps p n).length) 0
    (fun _ hx => hx) (List.nodup_dedup _)
    (fun n _ => by
      rw [List.filter_eq_self.mpr]
      intro s _
      by_cases hsi : s ∈ plannerNodeIds p <;> simp [hsi])
  refine ⟨?_, rfl, ?_, ?_⟩
  · intro i hi n hn e he htarget hsource
    have hnids : n ∈ plannerNodeIds p := sA i hi hn
    have hdep : e.source ∈ plannerDeps p n := by
      unfold plannerDeps
      rw [if_pos hnids, List.mem_dedup, List.mem_map]
      exact ⟨e, List.mem_filter.mpr ⟨he, beq_iff_eq.mpr htarget⟩, rfl⟩
    have hsrc : e.source ∈ plannerNodeIds p := by
      rw [hdedup]
      exact hsource
    rcases sB i hi n hn e.source hdep hsrc with hout | hj
    · exact absurd hsrc hout
    · exact hj
  · have hlen : (plannerNodeIds p).length = p.nodes.length := by
      rw [hdedup]
      exact List.length_map _ _
    rw [← hlen]
    exact sC
  · intro i hi
    have hsd := sD i hi
    rwa [Nat.zero_add] at hsd

theorem planner_plan_correct_witness :
    projLinear.nodeIdList.Nodup
    ∧ ((∀ i (hi : i < (ExecutionPlan.from_project projLinear).waves.length) n,
        n ∈ ((ExecutionPlan.from_project projLinear).waves.get ⟨i, hi⟩).node_ids →
        ∀ e ∈ projLinear.edges, e.target = n → e.source ∈ projLinear.nodeIdList →
          ∃ j, ∃ hj : j < (ExecutionPlan.from_project projLinear).waves.length,
            j < i ∧ e.source ∈ ((ExecutionPlan.from_project projLinear).waves.get ⟨j, hj⟩).node_ids)
    ∧ (ExecutionPlan.from_project projLinear).total_nodes
        = ((ExecutionPlan.from_project projLinear).waves.map (fun w => w.node_ids.length)).sum
    ∧ (ExecutionPlan.from_project projLinear).total_nodes
        + (ExecutionPlan.from_project projLinear).skipped_nodes.length
        = projLinear.nodes.length
    ∧ ∀ i (hi : i < (ExecutionPlan.from_project projLinear).waves.length),
        ((ExecutionPlan.from_project projLinear).waves.get ⟨i, hi⟩).wave_number = i) :=
  ⟨by decide, planner_plan_correct projLinear (by decide)⟩

theorem kahnLoop_congr (d1 d2 : String → List String) :
    ∀ (fuel : Nat) (remaining : List String) (g1 g2 : String → Nat) (w0 : Nat),
      (∀ n ∈ remaining, g1 n = g2 n) →
      (∀ s n, n ∈ remaining → (d1 s).contains n = (d2 s).contains n) →
      kahnLoop d1 fuel remaining g1 w0 = kahnLoop d2 fuel remaining g2 w0 := by
  intro fuel
  induction fuel with
  | zero => intro remaining g1 g2 w0 _ _; rfl
  | succ fuel ih =>
    intro remaining g1 g2 w0 hg hd
    have hready : remaining.filter (fun id => g1 id == 0)
        = remaining.filter (fun id => g2 id == 0) :=
      List.filter_congr (fun x hx => by rw [hg x hx])
    by_cases hre : remaining.isEmpty = true
    · simp only [kahnLoop, hre, if_true]
    · rw [Bool.not_eq_true] at hre
      by_cases hrdy : (remaining.filter (fun id => g1 id == 0)).isEmpty = true
      · have hrdy2 : (remaining.filter (fun id => g2 id == 0)).isEmpty = true := by
          rw [← hready]
          exact hrdy
        simp only [kahnLoop, hre, hrdy, hrdy2, Bool.false_eq_true, if_false, if_true]
      · rw [Bool.not_eq_true] at hrdy
        have hrdy2 : (remaining.filter (fun id => g2 id == 0)).isEmpty = false := by
          rw [← hready]
          exact hrdy
        simp only [kahnLoop, hre, hrdy, hrdy2, Bool.false_eq_true, if_false]
        rw [hready]
        have hrec := ih
          (remaining.filter (fun id =>
            !((remaining.filter (fun id2 => g2 id2 == 0)).contains id)))
          (fun n => g1 n - ((remaining.filter (fun id2 => g2 id2 == 0)).filter
            (fun s => (d1 s).contains n)).length)
          (fun n => g2 n - ((remaining.filter (fun id2 => g2 id2 == 0)).filter
            (fun s => (d2 s).contains n)).length)
          (w0 + 1)
          (fun n hn => by
            have hnr : n ∈ remaining := (List.filter_sublist _).subset hn
            dsimp only
            rw [hg n hnr, List.filter_congr (fun s _ => by rw [hd s n hnr])])
          (fun s n hn => hd s n ((List.filter_sublist _).subset hn))
        rw [hrec]

/-- C4 counterexample: an edge whose *source* names no existing node is not
ignored by the planner — with the dangling edge `x → a` present, node `a` is
skipped; with the edge removed, `a` is scheduled in wave 0, so the two
plans differ. -/
theorem planner_dangling_source_counterexample :
    projDanglingSource.nodes = projNoEdge.nodes
    ∧ projDanglingSource.edges = [testEdge "e1" "x" "a"]
    ∧ projNoEdge.edges = []
    ∧ "x" ∉ projDanglingSource.nodeIdList
    ∧ ExecutionPlan.from_project projDanglingSource
        ≠ ExecutionPlan.from_project projNoEdge
    ∧ (ExecutionPlan.from_project projDanglingSource).skipped_nodes = ["a"]
    ∧ (ExecutionPlan.from_project projNoEdge).skipped_nodes = [] := by
  refine ⟨rfl, rfl, rfl, by decide, by decide, by decide, by decide⟩

/-- C4 (amended): the planner ignores an edge whose *target* names no
existing node: removing such an edge leaves the computed `ExecutionPlan`
(waves, totalNodes and skippedNodes) unchanged.  An edge whose source is
missing while its target exists is *not* ignored — it blocks its target
forever (see the counterexample). -/
theorem planner_ignores_dangling_target_edges (p : Project) (e : CodeEdge)
    (E1 E2 : List CodeEdge) (hedges : p.edges = E1 ++ e :: E2)
    (htarget : e.target ∉ p.nodeIdList) :
    ExecutionPlan.from_project p
      = ExecutionPlan.from_project { p with edges := E1 ++ E2 } := by
  have hids : plannerNodeIds { p with edges := E1 ++ E2 } = plannerNodeIds p := rfl
  have htne : ∀ n, n ∈ plannerNodeIds p → (e.target == n) = false := by
    intro n hn
    rw [beq_eq_false_iff_ne]
    intro heq
    apply htarget
    rw [heq]
    unfold plannerNodeIds at hn
    exact List.mem_dedup.mp hn
  have hdeps : ∀ n, n ∈ plannerNodeIds p →
      plannerDeps p n = plannerDeps { p with edges := E1 ++ E2 } n := by
    intro n hn
    have hn2 : n ∈ plannerNodeIds { p with edges := E1 ++ E2 } := hn
    unfold plannerDeps
    rw [if_pos hn, if_pos hn2]
    show ((p.edges.filter (fun e2 => e2.target == n)).map CodeEdge.source).dedup
      = (((E1 ++ E2).filter (fun e2 => e2.target == n)).map CodeEdge.source).dedup
    rw [hedges, List.filter_append,
      List.filter_cons_of_neg (by rw [htne n hn]; exact Bool.false_ne_true),
      ← List.filter_append]
  have hdeps2 : ∀ s n, n ∈ plannerNodeIds p →
      (plannerDependents p s).contains n
        = (plannerDependents { p with edges := E1 ++ E2 } s).contains n := by
    intro s n hn
    apply bool_eq_of_iff
    rw [string_contains_iff, string_contains_iff]
    unfold plannerDependents
    have hseq : s ∈ plannerNodeIds { p with edges := E1 ++ E2 } ↔ s ∈ plannerNodeIds p :=
      Iff.rfl
    by_cases hs : s ∈ plannerNodeIds p
    · rw [if_pos hs, if_pos (hseq.mpr hs), List.mem_dedup, List.mem_dedup,
        List.mem_map, List.mem_map]
      constructor
      · rintro ⟨e2, he2, hte2⟩
        rw [List.mem_filter, hedges] at he2
        obtain ⟨hmem, hsrc⟩ := he2
        rw [List.mem_append, List.mem_cons] at hmem
        rcases hmem with hmem | hmem | hmem
        · exact ⟨e2, List.mem_filter.mpr ⟨List.mem_append.mpr (Or.inl hmem), hsrc⟩, hte2⟩
        · exfalso
          rw [hmem] at hte2
          rw [← hte2] at hn
          have h2 : (e.target == e.target) = true := beq_iff_eq.mpr rfl
          rw [htne e.target hn] at h2
          exact Bool.false_ne_true h2
        · exact ⟨e2, List.mem_filter.mpr ⟨List.mem_append.mpr (Or.inr hmem), hsrc⟩, hte2⟩
      · rintro ⟨e2, he2, hte2⟩
        rw [List.mem_filter] at he2
        obtain ⟨hmem, hsrc⟩ := he2
        rw [List.mem_append] at hmem
        refine ⟨e2, List.mem_filter.mpr ⟨?_, hsrc⟩, hte2⟩
        rw [hedges, List.mem_append, List.mem_cons]
        rcases hmem with hmem | hmem
        · exact Or.inl hmem
        · exact Or.inr (Or.inr hmem)
    · rw [if_neg hs, if_neg (fun hc => hs (hseq.mp hc))]
  unfold ExecutionPlan.from_project
  rw [hids]
  dsimp only
  have hkey : kahnLoop (plannerDependents p) (plannerNodeIds p).length (plannerNodeIds p)
      (fun n => (plannerDeps p n).length) 0
      = kahnLoop (plannerDependents { p with edges := E1 ++ E2 })
          (plannerNodeIds p).length (plannerNodeIds p)
          (fun n => (plannerDeps { p with edges := E1 ++ E2 } n).length) 0 :=
    kahnLoop_congr _ _ _ _ _ _ _
      (fun n hn => by rw [hdeps n hn])
      (fun s n hn => hdeps2 s n hn)
  rw [hkey]

theorem planner_ignores_dangling_target_edges_witness :
    projDanglingTarget.edges = [] ++ testEdge "e1" "a" "x" :: []
    ∧ (testEdge "e1" "a" "x").target ∉ projDanglingTarget.nodeIdList
    ∧ ExecutionPlan.from_project projDanglingTarget
        = ExecutionPlan.from_project { projDanglingTarget with edges := [] ++ [] } :=
  ⟨rfl, by decide,
    planner_ignores_dangling_target_edges projDanglingTarget (testEdge "e1" "a" "x")
      [] [] rfl (by decide)⟩

/-! ### Executor lemmas -/

section ExecutorLemmas

theorem executorUpdateNode_length (nodes : List CodeNode) (id : String)
    (st : NodeStatus) (c e : Option String) :
    (executorUpdateNode nodes id st c e).length = nodes.length := by
  induction nodes with
  | nil => rfl
  | cons n rest ih =>
    simp only [executorUpdateNode]
    split
    · rfl
    · simp only [List.length_cons, ih]

theorem executorUpdateNode_ids (nodes : List CodeNode) (id : String)
    (st : NodeStatus) (c e : Option String) :
    (executorUpdateNode nodes id st c e).map (fun n => n.id)
      = nodes.map (fun n => n.id) := by
  induction nodes with
  | nil => rfl
  | cons n rest ih =>
    simp only [executorUpdateNode]
    split
    · rfl
    · simp only [List.map_cons, ih]

theorem executorUpdateNode_getElem (nodes : List CodeNode) (id : String)
    (st : NodeStatus) (c e : Option String) : ∀ i,
    (executorUpdateNode nodes id st c e)[i]? =
      (nodes[i]?).map (fun n =>
        if n.id = id ∧ n.id ∉ (nodes.take i).map (fun m => m.id) then
          { n with
            status := st
            generated_code := match c with | some x => some x | none => n.generated_code
            error_message := e }
        else n) := by
  induction nodes with
  | nil => intro i; simp [executorUpdateNode]
  | cons n rest ih =>
    intro i
    by_cases hn : n.id = id
    · simp only [executorUpdateNode]
      rw [if_pos hn]
      cases i with
      | zero =>
        rw [List.getElem?_cons_zero, List.getElem?_cons_zero, Option.map_some']
        rw [if_pos ⟨hn, by simp⟩]
      | succ i =>
        rw [List.getElem?_cons_succ, List.getElem?_cons_succ]
        cases hr : rest[i]? with
        | none => rfl
        | some m =>
          rw [Option.map_some']
          rw [if_neg ?hc]
          case hc =>
            rintro ⟨h1, h2⟩
            apply h2
            rw [List.take_succ_cons, List.map_cons, h1, ← hn]
            exact List.mem_cons_self _ _
    · simp only [executorUpdateNode]
      rw [if_neg hn]
      cases i with
      | zero =>
        rw [List.getElem?_cons_zero, List.getElem?_cons_zero, Option.map_some']
        rw [if_neg (fun hc => hn hc.1)]
      | succ i =>
        rw [List.getElem?_cons_succ, List.getElem?_cons_succ, ih i]
        cases hr : rest[i]? with
        | none => rfl
        | some m =>
          rw [Option.map_some', Option.map_some']
          congr 1
          apply if_congr ?_ rfl rfl
          constructor
          · rintro ⟨h1, h2⟩
            refine ⟨h1, ?_⟩
            rw [List.take_succ_cons, List.map_cons]
            intro hmem
            rcases List.mem_cons.mp hmem with hx | hx
            · exact hn (by rw [← h1, hx])
            · exact h2 hx
          · rintro ⟨h1, h2⟩
            rw [List.take_succ_cons, List.map_cons] at h2
            exact ⟨h1, fun hx => h2 (List.mem_cons.mpr (Or.inr hx))⟩

theorem foldUpd_length (st : String → NodeStatus) (c e : String → Option String)
    (f : List CodeNode → String → List CodeNode)
    (hf : ∀ ns id, f ns id = executorUpdateNode ns id (st id) (c id) (e id)) :
    ∀ (L : List String) (nodes : List CodeNode),
      (L.foldl f nodes).length = nodes.length := by
  intro L
  induction L with
  | nil => intro nodes; rfl
  | cons id L ih =>
    intro nodes
    rw [List.foldl_cons, ih, hf, executorUpdateNode_length]

theorem foldUpd_ids (st : String → NodeStatus) (c e : String → Option String)
    (f : List CodeNode → String → List CodeNode)
    (hf : ∀ ns id, f ns id = executorUpdateNode ns id (st id) (c id) (e id)) :
    ∀ (L : List String) (nodes : List CodeNode),
      (L.foldl f nodes).map (fun n => n.id) = nodes.map (fun n => n.id) := by
  intro L
  induction L with
  | nil => intro nodes; rfl
  | cons id L ih =>
    intro nodes
    rw [List.foldl_cons, ih, hf, executorUpdateNode_ids]

theorem foldUpd_getElem (st : String → NodeStatus) (c e : String → Option String)
    (f : List CodeNode → String → List CodeNode)
    (hf : ∀ ns id, f ns id = executorUpdateNode ns id (st id) (c id) (e id)) :
    ∀ (L : List String) (nodes : List CodeNode) (i : Nat),
    (L.foldl f nodes)[i]? =
      (nodes[i]?).map (fun n =>
        if n.id ∈ L ∧ n.id ∉ (nodes.take i).map (fun m => m.id) then
          { n with
            status := st n.id
            generated_code := match c n.id with | some x => some x | none => n.generated_code
            error_message := e n.id }
        else n) := by
  intro L
  induction L with
  | nil =>
    intro nodes i
    cases hr : nodes[i]? with
    | none => rw [List.foldl_nil, hr]; rfl
    | some n =>
      rw [List.foldl_nil, hr, Option.map_some']
      rw [if_neg (fun hc => List.not_mem_nil _ hc.1)]
  | cons id L ih =>
    intro nodes i
    rw [List.foldl_cons, ih, hf, executorUpdateNode_getElem]
    have htake : ((executorUpdateNode nodes id (st id) (c id) (e id)).take i).map
        (fun m => m.id) = (nodes.take i).map (fun m => m.id) := by
      rw [List.map_take, List.map_take, executorUpdateNode_ids]
    cases hr : nodes[i]? with
    | none => rfl
    | some n =>
      rw [Option.map_some', Option.map_some', Option.map_some']
      rw [htake]
      have hid : (if n.id = id ∧ n.id ∉ (nodes.take i).map (fun m => m.id) then
          { n with
            status := st id
            generated_code := match c id with | some x => some x | none => n.generated_code
            error_message := e id }
        else n).id = n.id := by
        split <;> rfl
      rw [hid]
      by_cases hfirst : n.id ∉ (nodes.take i).map (fun m => m.id)
      · by_cases h1 : n.id = id
        · rw [← h1]
          have hc1 : n.id = n.id ∧ n.id ∉ (nodes.take i).map (fun m => m.id) :=
            ⟨rfl, hfirst⟩
          rw [if_pos hc1]
          have hc3 : n.id ∈ n.id :: L ∧ n.id ∉ (nodes.take i).map (fun m => m.id) :=
            ⟨List.mem_cons.mpr (Or.inl rfl), hfirst⟩
          by_cases h2 : n.id ∈ L
          · have hc2 : n.id ∈ L ∧ n.id ∉ (nodes.take i).map (fun m => m.id) :=
              ⟨h2, hfirst⟩
            rw [if_pos hc2, if_pos hc3]
            cases hc : c n.id <;> simp [hc]
          · have hn2 : ¬(n.id ∈ L ∧ n.id ∉ (nodes.take i).map (fun m => m.id)) :=
              fun hc => h2 hc.1
            rw [if_neg hn2, if_pos hc3]
        · have hn1 : ¬(n.id = id ∧ n.id ∉ (nodes.take i).map (fun m => m.id)) :=
            fun hc => h1 hc.1
          rw [if_neg hn1]
          by_cases h2 : n.id ∈ L
          · have hc2 : n.id ∈ L ∧ n.id ∉ (nodes.take i).map (fun m => m.id) :=
              ⟨h2, hfirst⟩
            have hc3 : n.id ∈ id :: L ∧ n.id ∉ (nodes.take i).map (fun m => m.id) :=
              ⟨List.mem_cons.mpr (Or.inr h2), hfirst⟩
            rw [if_pos hc2, if_pos hc3]
          · have hn2 : ¬(n.id ∈ L ∧ n.id ∉ (nodes.take i).map (fun m => m.id)) :=
              fun hc => h2 hc.1
            have hn3 : ¬(n.id ∈ id :: L ∧ n.id ∉ (nodes.take i).map (fun m => m.id)) := by
              rintro ⟨hc, _⟩
              rcases List.mem_cons.mp hc with hx | hx
              · exact h1 hx
              · exact h2 hx
            rw [if_neg hn2, if_neg hn3]
      · rw [not_not] at hfirst
        have hn1 : ¬(n.id = id ∧ n.id ∉ (nodes.take i).map (fun m => m.id)) :=
          fun hc => hc.2 hfirst
        have hn2 : ¬(n.id ∈ L ∧ n.id ∉ (nodes.take i).map (fun m => m.id)) :=
          fun hc => hc.2 hfirst
        have hn3 : ¬(n.id ∈ id :: L ∧ n.id ∉ (nodes.take i).map (fun m => m.id)) :=
          fun hc => hc.2 hfirst
        rw [if_neg hn1, if_neg hn2, if_neg hn3]

end ExecutorLemmas

theorem applyResult_eq (o : String → NodeResult) : ∀ ns id, applyResult o ns id
    = executorUpdateNode ns id
        (if (o id).success then NodeStatus.Complete else NodeStatus.Error)
        (if (o id).success then (o id).generated_code else none)
        (if (o id).success then none else (o id).error_message) := by
  intro ns id
  unfold applyResult
  by_cases h : (o id).success = true <;> simp [h]

theorem runWave_length (o : String → NodeResult) (w : ExecutionWave)
    (nodes : List CodeNode) : (runWave o w nodes).length = nodes.length := by
  unfold runWave
  rw [foldUpd_length _ _ _ (applyResult o) (applyResult_eq o),
    foldUpd_length (fun _ => NodeStatus.Generating) (fun _ => none) (fun _ => none)
      (fun ns id => executorUpdateNode ns id .Generating none none) (fun _ _ => rfl)]

theorem runWave_status (o : String → NodeResult) (w : ExecutionWave)
    (nodes : List CodeNode) (idx : Nat) (m : CodeNode)
    (h : (runWave o w nodes)[idx]? = some m) :
    ∃ n, nodes[idx]? = some n
      ∧ (m.status = .Complete ∨ m.status = .Error ∨ m.status = n.status) := by
  have hmark := foldUpd_getElem (fun _ => NodeStatus.Generating) (fun _ => none)
    (fun _ => none) (fun ns id => executorUpdateNode ns id .Generating none none)
    (fun _ _ => rfl) w.node_ids nodes idx
  have happ := foldUpd_getElem
    (fun id => if (o id).success then NodeStatus.Complete else NodeStatus.Error)
    (fun id => if (o id).success then (o id).generated_code else none)
    (fun id => if (o id).success then none else (o id).error_message)
    (applyResult o) (applyResult_eq o) w.node_ids
    (w.node_ids.foldl (fun ns id => executorUpdateNode ns id .Generating none none) nodes)
    idx
  have h2 : (w.node_ids.foldl (applyResult o)
      (w.node_ids.foldl (fun ns id => executorUpdateNode ns id .Generating none none)
        nodes))[idx]? = some m := h
  rw [happ, hmark] at h2
  have hta : ((w.node_ids.foldl
        (fun ns id => executorUpdateNode ns id .Generating none none) nodes).take idx).map
        (fun m2 => m2.id)
      = (nodes.take idx).map (fun m2 => m2.id) := by
    rw [List.map_take, List.map_take,
      foldUpd_ids (fun _ => NodeStatus.Generating) (fun _ => none) (fun _ => none)
        (fun ns id => executorUpdateNode ns id .Generating none none) (fun _ _ => rfl)]
  cases hn : nodes[idx]? with
  | none =>
    rw [hn] at h2
    exact absurd h2 (by simp)
  | some n =>
    rw [hn, Option.map_some', Option.map_some'] at h2
    dsimp only at h2
    rw [hta] at h2
    refine ⟨n, rfl, ?_⟩
    by_cases hcond : n.id ∈ w.node_ids ∧ n.id ∉ (nodes.take idx).map (fun m2 => m2.id)
    · rw [if_pos hcond] at h2
      have hid2 : ({ n with
          status := NodeStatus.Generating
          generated_code := n.generated_code
          error_message := none } : CodeNode).id = n.id := rfl
      rw [if_pos (by rw [hid2]; exact hcond : ({ n with
          status := NodeStatus.Generating
          generated_code := n.generated_code
          error_message := none } : CodeNode).id ∈ w.node_ids
          ∧ ({ n with
            status := NodeStatus.Generating
            generated_code := n.generated_code
            error_message := none } : CodeNode).id
            ∉ (nodes.take idx).map (fun m2 => m2.id))] at h2
      cases Option.some.inj h2
      by_cases hs : (o n.id).success = true
      · left
        simp [hs]
      · right
        left
        simp [hs]
    · rw [if_neg hcond, if_neg hcond] at h2
      cases Option.some.inj h2
      exact Or.inr (Or.inr rfl)

theorem runWaves_length (o : String → NodeResult) (cancelAt : Nat → Bool) :
    ∀ (waves : List ExecutionWave) (i0 : Nat) (nodes : List CodeNode),
      (runWaves o cancelAt waves i0 nodes).length = nodes.length := by
  intro waves
  induction waves with
  | nil => intro i0 nodes; rfl
  | cons w rest ih =>
    intro i0 nodes
    by_cases hc : cancelAt i0 = true
    · simp only [runWaves, hc, if_true]
    · rw [Bool.not_eq_true] at hc
      simp only [runWaves, hc, Bool.false_eq_true, if_false]
      rw [ih, runWave_length]

theorem runWaves_status (o : String → NodeResult) (cancelAt : Nat → Bool) :
    ∀ (waves : List ExecutionWave) (i0 : Nat) (nodes : List CodeNode) (idx : Nat)
      (n' : CodeNode),
      (runWaves o cancelAt waves i0 nodes)[idx]? = some n' →
      n'.status = .Complete ∨ n'.status = .Error
        ∨ ∃ n, nodes[idx]? = some n ∧ n'.status = n.status := by
  intro waves
  induction waves with
  | nil =>
    intro i0 nodes idx n' h
    exact Or.inr (Or.inr ⟨n', h, rfl⟩)
  | cons w rest ih =>
    intro i0 nodes idx n' h
    by_cases hc : cancelAt i0 = true
    · have heq : runWaves o cancelAt (w :: rest) i0 nodes = nodes := by
        simp only [runWaves, hc, if_true]
      rw [heq] at h
      exact Or.inr (Or.inr ⟨n', h, rfl⟩)
    · rw [Bool.not_eq_true] at hc
      have heq : runWaves o cancelAt (w :: rest) i0 nodes
          = runWaves o cancelAt rest (i0 + 1) (runWave o w nodes) := by
        simp only [runWaves, hc, Bool.false_eq_true, if_false]
      rw [heq] at h
      rcases ih (i0 + 1) (runWave o w nodes) idx n' h with hst | hst | ⟨m, hm, hst⟩
      · exact Or.inl hst
      · exact Or.inr (Or.inl hst)
      · obtain ⟨n, hn, hcase⟩ := runWave_status o w nodes idx m hm
        rcases hcase with h1 | h1 | h1
        · exact Or.inl (by rw [hst, h1])
        · exact Or.inr (Or.inl (by rw [hst, h1]))
        · exact Or.inr (Or.inr ⟨n, hn, by rw [hst, h1]⟩)

/-- C2 counterexample: a project whose single node is already `Generating`
and sits on a self-loop (so the planner skips it) comes out of
`execute_all` with that node still `Generating` — the claim's "no node's
status is Generating" fails for such input states. -/
theorem executor_generating_persists_counterexample :
    (execute_all projGenStuck oracleOk neverCancel).nodes.map (fun n => n.status)
      = [NodeStatus.Generating] := by
  decide

/-- C2 (amended): after `execute_all` terminates — for every project, every
combination of per-node generation outcomes, and every cancellation
schedule — every node's status is `Complete`, `Error`, or its own *initial*
status; in particular, when no input node is `Generating` (e.g. all
`Pending`), no node of the result is `Generating`. -/
theorem executor_final_statuses (p : Project) (o : String → NodeResult)
    (cancelAt : Nat → Bool) :
    (execute_all p o cancelAt).nodes.length = p.nodes.length
    ∧ (∀ (i : Nat) (n' : CodeNode), ((execute_all p o cancelAt).nodes)[i]? = some n' →
        n'.status = .Complete ∨ n'.status = .Error
          ∨ ∃ n, p.nodes[i]? = some n ∧ n'.status = n.status)
    ∧ ((∀ n ∈ p.nodes, n.status ≠ .Generating) →
        ∀ n' ∈ (execute_all p o cancelAt).nodes, n'.status ≠ .Generating) := by
  refine ⟨runWaves_length o cancelAt (ExecutionPlan.from_project p).waves 0 p.nodes,
    ?_, ?_⟩
  · intro i n' h
    exact runWaves_status o cancelAt (ExecutionPlan.from_project p).waves 0 p.nodes i n' h
  · intro hno n' hn'
    obtain ⟨i, hi⟩ := List.mem_iff_getElem?.mp hn'
    rcases runWaves_status o cancelAt (ExecutionPlan.from_project p).waves 0 p.nodes i n'
      hi with hst | hst | ⟨n, hn, hst⟩
    · rw [hst]
      intro hcontra
      exact NodeStatus.noConfusion hcontra
    · rw [hst]
      intro hcontra
      exact NodeStatus.noConfusion hcontra
    · rw [hst]
      exact hno n (List.mem_iff_getElem?.mpr ⟨i, hn⟩)

theorem executor_final_statuses_witness :
    (∀ n ∈ projLinear.nodes, n.status ≠ NodeStatus.Generating)
    ∧ (∀ n' ∈ (execute_all projLinear oracleOk neverCancel).nodes,
        n'.status ≠ NodeStatus.Generating) :=
  ⟨by decide,
    (executor_final_statuses projLinear oracleOk neverCancel).2.2 (by decide)⟩
